import Mathlib

/-!
# Verification of the Linux music playlist manager's playback core

Shallow embedding of the C++ sources (`audio.cpp`, `link.cpp`, `link.h`) of the
playlist-manager repository, together with proofs checking the natural-language
specification's claims against the code.

Conventions:
* machine integers (`off_t`, `sf_count_t`, `long`, `int`) are embedded as `Int`
  (the values involved never overflow in the scenarios modelled);
* fallible library calls are driven by oracle environments: each call that can
  fail in C++ reads its outcome from an environment field, so theorems quantify
  over every possible sequence of library outcomes;
* unbounded C++ loops are interpreted with explicit fuel and return `Option`;
  `none` models a run that did not terminate within the fuel (or hit undefined
  behaviour in the heap model).
-/

namespace MusicPlayer

/-! ## Format classifier (`audio.cpp`, `isMP3File`, lines 94-97)

The source decides the backend with
`std::regex_match(filename, std::regex(".*\\.[mM][pP]3$"))`.
`regex_match` requires the whole string to match.  The suffix
`\.[mM][pP]3` matches exactly four characters, so a full match exists iff the
last four characters are `.mp3` case-insensitively and every character before
them is matched by `.`.  In ECMAScript regexes (the `std::regex` default
grammar) `.` matches any character except a line terminator; for the `char`
specialisation the line terminators are `'\n'` and `'\r'`. -/

/-- A character rejected by the ECMAScript regex metacharacter `.`
(line terminators `'\n'` and `'\r'` for the byte/char specialisation). -/
def isLineTerminator (c : Char) : Bool :=
  c = '\n' || c = '\r'

/-- The four-character suffix pattern `\.[mM][pP]3` of the source regex. -/
def mp3SuffixPattern : List Char → Bool
  | [d, m, p, three] =>
      d = '.' && (m = 'm' || m = 'M') && (p = 'p' || p = 'P') && three = '3'
  | _ => false

/-- `isMP3File` (`audio.cpp` lines 94-97):
`std::regex_match(filename, std::regex(".*\\.[mM][pP]3$"))`.
Since the suffix part consumes exactly 4 characters and `regex_match` anchors
both ends, the match decomposition is unique: the last 4 characters must match
`\.[mM][pP]3` and all earlier characters must each be matched by `.`, which
excludes line terminators. -/
def isMP3File (filename : List Char) : Bool :=
  let n := filename.length
  decide (4 ≤ n) &&
    mp3SuffixPattern (filename.drop (n - 4)) &&
    (filename.take (n - 4)).all (fun c => !(isLineTerminator c))

/-- The two backend families distinguished by the classifier (spec §3,
`AudioSource.format`). -/
inductive FormatFamily
  | FrameCoded
  | SampleCoded
deriving DecidableEq, Repr

/-- Backend selection as performed at the top of `player` /
`playerWithControls`: `isMP3File` picks the mpg123 (frame-coded) branch,
everything else goes to the libsndfile (sample-coded) branch. -/
def classifyFormat (filename : List Char) : FormatFamily :=
  if isMP3File filename then FormatFamily.FrameCoded else FormatFamily.SampleCoded

/-- Modelled from the spec's words only (for comparison with the code):
"return FrameCoded if the name's extension case-insensitively matches the
compressed-audio family's known extension" — i.e. the name ends in `.mp3`
case-insensitively.  Defined structurally on the reversed character list. -/
def specEndsInMp3CI (filename : List Char) : Bool :=
  match filename.reverse with
  | three :: p :: m :: d :: _ =>
      three = '3' && (p = 'p' || p = 'P') && (m = 'm' || m = 'M') && d = '.'
  | _ => false

/-! ## Seek command handlers (`playerWithControls`, `audio.cpp`)

The transport controller's `'j'`/`'k'` cases.  The two backend branches differ
structurally, so both are embedded separately.

The mpg123 (frame-coded) branch issues absolute seeks
(`mpg123_seek_frame(mh, target, SEEK_SET)`) after clamping; the libsndfile
(sample-coded) branch issues relative seeks (`sf_seek(sndfile, delta,
SEEK_CUR)`) without clamping and recovers from failure by seeking to 0. -/

/-- `sf_seek(sndfile, delta, SEEK_CUR)` on a file with `total` frames at
position `pos`: libsndfile accepts a target in `[0, total]` and returns the new
position, otherwise it fails, returns `-1` and leaves the position unchanged. -/
def sfSeekCur (total pos delta : Int) : Int :=
  if 0 ≤ pos + delta ∧ pos + delta ≤ total then pos + delta else -1

/-- The `'j'` (seek-back) case of the frame-coded branch
(`audio.cpp` lines 662-672).  Returns the absolute frame target passed to
`mpg123_seek_frame`, or `none` when no seek call is issued
(the handler is guarded by `current_frame_pos > 0`). -/
def mp3SeekBackRequest (rate cur : Int) : Option Int :=
  if cur > 0 then
    let jumpFrames := rate * 10
    let target := cur - jumpFrames
    some (if target < 0 then 0 else target)
  else none

/-- Decoder position after the `'j'` case of the frame-coded branch, assuming
the backend accepts the (clamped, in-range) request.  When no request is
issued the decoder stays at `cur`. -/
def mp3SeekBackResult (rate cur : Int) : Int :=
  match mp3SeekBackRequest rate cur with
  | some target => target
  | none => cur

/-- The `'k'` (seek-forward) case of the frame-coded branch
(`audio.cpp` lines 673-683).  Returns the absolute frame target passed to
`mpg123_seek_frame`, or `none` when the total length is unknown
(`total_frames <= 0`) and the handler refuses to seek. -/
def mp3SeekForwardRequest (rate cur total : Int) : Option Int :=
  if total > 0 then
    let jumpFrames := rate * 10
    let target := cur + jumpFrames
    some (if target ≥ total then total - 1 else target)
  else none

/-- Decoder position after the `'k'` case of the frame-coded branch, assuming
the backend accepts the (clamped, in-range) request. -/
def mp3SeekForwardResult (rate cur total : Int) : Int :=
  match mp3SeekForwardRequest rate cur total with
  | some target => target
  | none => cur

/-- The absolute target position implied by the `'j'` case of the sample-coded
branch (`audio.cpp` lines 867-879): `sf_seek(sndfile, -jump_frames, SEEK_CUR)`
asks the backend for position `pos - rate*10`, with no prior clamping. -/
def sndSeekBackRequest (rate pos : Int) : Int :=
  pos - rate * 10

/-- Position after the `'j'` case of the sample-coded branch:
`current_frame_pos = sf_seek(sndfile, -jump_frames, SEEK_CUR);
if (current_frame_pos < 0) { sf_seek(sndfile, 0, SEEK_SET); pos = 0 }`. -/
def sndSeekBackResult (rate total pos : Int) : Int :=
  let r := sfSeekCur total pos (-(rate * 10))
  if r < 0 then 0 else r

/-- The absolute target position implied by the `'k'` case of the sample-coded
branch (`audio.cpp` lines 880-893): `sf_seek(sndfile, jump_frames, SEEK_CUR)`
asks the backend for position `pos + rate*10`, with no clamping against the
total length and no unknown-length guard. -/
def sndSeekForwardRequest (rate pos : Int) : Int :=
  pos + rate * 10

/-- Position after the `'k'` case of the sample-coded branch. -/
def sndSeekForwardResult (rate total pos : Int) : Int :=
  let r := sfSeekCur total pos (rate * 10)
  if r < 0 then 0 else r

/-! ## Decode/output session model

`player` and `playerWithControls` are embedded as oracle-driven state
machines.  Each loop iteration consumes one `Mp3Iter`/`SndIter` record that
fixes the outcome of the library calls made during that iteration
(`kbhit`/`getch`, `mpg123_read`/`sf_readf_short`, `pa_simple_write`,
`mpg123_seek_frame`).  The loops run on explicit fuel. -/

/-- Observable actions of one session, in program order. -/
inductive Event
  | seekRequest (target : Int)  -- a seek call handed to the backend decoder
  | decodeChunk                 -- one mpg123_read / sf_readf_short call
  | writeChunk                  -- one pa_simple_write call
  | sleepPaused                 -- usleep(100000) taken in the paused branch
  | redrawBar (percent : Int) (width : Nat)  -- progress bar redrawn
  | unknownDurationTick         -- "Playing... (duration unknown)" line
  | drainOutput                 -- pa_simple_drain call
deriving DecidableEq, Repr

/-- Loop-body outcome: finish the body normally (`next`, the `while` condition
is re-checked) or leave the loop (`brk`). -/
inductive StepOut (σ : Type)
  | next (s : σ)
  | brk (s : σ)
deriving DecidableEq, Repr

/-- Result of one `mpg123_read` call (`MPG123_DONE` / `MPG123_NEW_FORMAT` /
`MPG123_OK` with a chunk advancing the decode position by `frames` PCM frames
(`frames = 0` models `bytes_decoded == 0`) / a hard decoder error). -/
inductive Mp3Read
  | done
  | newFormat
  | chunk (frames : Nat)
  | err
deriving DecidableEq, Repr

/-- Oracle for one iteration of an mpg123 playback loop. -/
structure Mp3Iter where
  key : Option Char   -- kbhit() true and getch() = key, or no key pending
  seekOk : Bool       -- whether mpg123_seek_frame succeeds (result unchecked)
  read : Mp3Read
  writeOk : Bool      -- whether pa_simple_write succeeds
deriving Repr

/-- Mutable loop state of the mpg123 branch (`audio.cpp` lines 639-644):
`current_frame_pos`, `last_percent`, `playback_error`, `is_paused`,
`should_stop`, plus the decoder's actual decode position, which
`mpg123_framepos` reports. -/
structure Mp3State where
  decoderPos : Int
  currentFramePos : Int
  lastPercent : Int
  isPaused : Bool
  shouldStop : Bool
  playbackError : Bool
deriving DecidableEq, Repr

/-- Initial values of the loop variables (`audio.cpp` lines 639-644). -/
def mp3Init : Mp3State :=
  { decoderPos := 0, currentFramePos := 0, lastPercent := -1
    isPaused := false, shouldStop := false, playbackError := false }

/-- `percent` as computed by the progress reporter (`audio.cpp` lines
724-728): truncate `pos/total * 100` to an integer, then clamp with
`std::min(100, std::max(0, percent))`.  For the values reachable in the loop
(`pos ≥ 0`, `total > 0`) truncation agrees with `Int` division. -/
def percentOf (total pos : Int) : Int :=
  min 100 (max 0 (pos * 100 / total))

/-- Progress reporter (`audio.cpp` lines 724-744 and 925-945): with a known
total, redraw the fixed 25-cell bar only when the clamped percent differs from
`last_percent` (which is then updated); with unknown total, print the
indeterminate indicator and leave `last_percent` untouched.  Returns the new
`last_percent` and the emitted events. -/
def progressUpdate (total posDisplay lastPercent : Int) : Int × List Event :=
  if total > 0 then
    let percent := percentOf total posDisplay
    if percent ≠ lastPercent then (percent, [Event.redrawBar percent 25])
    else (lastPercent, [])
  else (lastPercent, [Event.unknownDurationTick])

/-- Transport-controller dispatch of the mpg123 branch of
`playerWithControls` (`audio.cpp` lines 648-685). -/
def mp3KeyDispatch (rate total : Int) (seekOk : Bool) (key : Char)
    (s : Mp3State) : Mp3State × List Event :=
  if key = ' ' then
    ({ s with isPaused := !s.isPaused }, [])
  else if key = 's' ∨ key = 'S' then
    ({ s with shouldStop := true }, [])
  else if key = 'j' then
    match mp3SeekBackRequest rate s.currentFramePos with
    | some target =>
        ({ s with decoderPos := if seekOk then target else s.decoderPos },
         [Event.seekRequest target])
    | none => (s, [])
  else if key = 'k' then
    match mp3SeekForwardRequest rate s.currentFramePos total with
    | some target =>
        ({ s with decoderPos := if seekOk then target else s.decoderPos },
         [Event.seekRequest target])
    | none => (s, [])
  else (s, [])

/-- One iteration of the `playerWithControls` mpg123 loop body
(`audio.cpp` lines 646-745): poll/dispatch a key; if paused, sleep and restart
the loop; otherwise decode a chunk (`MPG123_DONE` breaks, `MPG123_NEW_FORMAT`
re-queries the format and restarts, an error sets `playback_error` and breaks,
zero decoded bytes restart), write it (failure sets `playback_error` and
breaks), refresh `current_frame_pos` from `mpg123_framepos` and update the
progress display. -/
def mp3LoopBody (rate total : Int) (o : Mp3Iter) (s : Mp3State) :
    StepOut Mp3State × List Event :=
  let ke := match o.key with
    | some k => mp3KeyDispatch rate total o.seekOk k s
    | none => (s, [])
  let s1 := ke.1
  if s1.isPaused then
    (StepOut.next s1, ke.2 ++ [Event.sleepPaused])
  else
    match o.read with
    | Mp3Read.done => (StepOut.brk s1, ke.2 ++ [Event.decodeChunk])
    | Mp3Read.newFormat => (StepOut.next s1, ke.2 ++ [Event.decodeChunk])
    | Mp3Read.err =>
        (StepOut.brk { s1 with playbackError := true },
         ke.2 ++ [Event.decodeChunk])
    | Mp3Read.chunk frames =>
        let s2 := { s1 with decoderPos := s1.decoderPos + frames }
        if frames = 0 then (StepOut.next s2, ke.2 ++ [Event.decodeChunk])
        else if !o.writeOk then
          (StepOut.brk { s2 with playbackError := true },
           ke.2 ++ [Event.decodeChunk, Event.writeChunk])
        else
          let s3 := { s2 with currentFramePos := s2.decoderPos }
          let pu := progressUpdate total s3.currentFramePos s3.lastPercent
          (StepOut.next { s3 with lastPercent := pu.1 },
           ke.2 ++ [Event.decodeChunk, Event.writeChunk] ++ pu.2)

/-- The `while (!should_stop)` loop of the mpg123 branch of
`playerWithControls`, driven by the iteration oracle `iter` starting at
iteration index `i`, with explicit fuel (`none` = the loop did not terminate
within the fuel). -/
def mp3RunLoop (rate total : Int) (iter : Nat → Mp3Iter) :
    Nat → Nat → Mp3State → Option (Mp3State × List Event)
  | 0, _, s => if s.shouldStop then some (s, []) else none
  | fuel + 1, i, s =>
    if s.shouldStop then some (s, [])
    else
      match mp3LoopBody rate total (iter i) s with
      | (StepOut.brk s1, evs) => some (s1, evs)
      | (StepOut.next s1, evs) =>
        match mp3RunLoop rate total iter fuel (i + 1) s1 with
        | some (s2, evs2) => some (s2, evs ++ evs2)
        | none => none

/-- One iteration of the `player` (no-controls) mpg123 loop body
(`audio.cpp` lines 229-282): same as `mp3LoopBody` but with no keyboard
polling, no pause and no stop (the loop is `while (true)`).  The oracle's
`key`/`seekOk` fields are unused here. -/
def plainMp3LoopBody (total : Int) (o : Mp3Iter) (s : Mp3State) :
    StepOut Mp3State × List Event :=
  match o.read with
  | Mp3Read.done => (StepOut.brk s, [Event.decodeChunk])
  | Mp3Read.newFormat => (StepOut.next s, [Event.decodeChunk])
  | Mp3Read.err =>
      (StepOut.brk { s with playbackError := true }, [Event.decodeChunk])
  | Mp3Read.chunk frames =>
      let s2 := { s with decoderPos := s.decoderPos + frames }
      if frames = 0 then (StepOut.next s2, [Event.decodeChunk])
      else if !o.writeOk then
        (StepOut.brk { s2 with playbackError := true },
         [Event.decodeChunk, Event.writeChunk])
      else
        let s3 := { s2 with currentFramePos := s2.decoderPos }
        let pu := progressUpdate total s3.currentFramePos s3.lastPercent
        (StepOut.next { s3 with lastPercent := pu.1 },
         [Event.decodeChunk, Event.writeChunk] ++ pu.2)

/-- The `while (true)` loop of the `player` mpg123 branch. -/
def plainMp3RunLoop (total : Int) (iter : Nat → Mp3Iter) :
    Nat → Nat → Mp3State → Option (Mp3State × List Event)
  | 0, _, _ => none
  | fuel + 1, i, s =>
    match plainMp3LoopBody total (iter i) s with
    | (StepOut.brk s1, evs) => some (s1, evs)
    | (StepOut.next s1, evs) =>
      match plainMp3RunLoop total iter fuel (i + 1) s1 with
      | some (s2, evs2) => some (s2, evs ++ evs2)
      | none => none

/-- Oracle for one iteration of the libsndfile playback loop.  `read` is the
frame count `sf_readf_short` would deliver were the file unbounded; the model
truncates it to the frames actually remaining before EOF. -/
structure SndIter where
  key : Option Char
  read : Int
  writeOk : Bool
deriving Repr

/-- Mutable loop state of the libsndfile branch (`audio.cpp` lines 842-849)
plus the backend's actual read position `pos` (the position `sf_seek`
operates on). -/
structure SndState where
  pos : Int
  framesPlayed : Int
  currentFramePos : Int
  lastPercent : Int
  isPaused : Bool
  shouldStop : Bool
  playbackError : Bool
deriving DecidableEq, Repr

/-- Initial values of the libsndfile loop variables. -/
def sndInit : SndState :=
  { pos := 0, framesPlayed := 0, currentFramePos := 0, lastPercent := -1
    isPaused := false, shouldStop := false, playbackError := false }

/-- Transport-controller dispatch of the libsndfile branches
(`audio.cpp` lines 853-895, identically 383-422): seeks are issued relative
to the backend position with no clamping; a failed seek is recovered by
`sf_seek(sndfile, 0, SEEK_SET)`; after a seek `frames_played` and
`current_frame_pos` are set to the resulting position. -/
def sndKeyDispatch (rate total : Int) (key : Char) (s : SndState) :
    SndState × List Event :=
  if key = ' ' then
    ({ s with isPaused := !s.isPaused }, [])
  else if key = 's' ∨ key = 'S' then
    ({ s with shouldStop := true }, [])
  else if key = 'j' then
    let newPos := sndSeekBackResult rate total s.pos
    ({ s with pos := newPos, currentFramePos := newPos, framesPlayed := newPos },
     [Event.seekRequest (sndSeekBackRequest rate s.pos)])
  else if key = 'k' then
    let newPos := sndSeekForwardResult rate total s.pos
    ({ s with pos := newPos, currentFramePos := newPos, framesPlayed := newPos },
     [Event.seekRequest (sndSeekForwardRequest rate s.pos)])
  else (s, [])

/-- One iteration of the libsndfile loop body (`audio.cpp` lines 851-946,
identically 379-474): poll/dispatch a key; if paused, sleep and restart;
otherwise read a chunk (`frames_read <= 0` breaks the loop), write it
(failure sets `playback_error` and breaks), accumulate `frames_played`,
query the position with `sf_seek(sndfile, 0, SEEK_CUR)` and update the
progress display (which uses `frames_played`). -/
def sndLoopBody (rate total : Int) (o : SndIter) (s : SndState) :
    StepOut SndState × List Event :=
  let ke := match o.key with
    | some k => sndKeyDispatch rate total k s
    | none => (s, [])
  let s1 := ke.1
  if s1.isPaused then
    (StepOut.next s1, ke.2 ++ [Event.sleepPaused])
  else
    let framesRead := min o.read (total - s1.pos)
    if framesRead ≤ 0 then (StepOut.brk s1, ke.2 ++ [Event.decodeChunk])
    else
      let s2 := { s1 with pos := s1.pos + framesRead }
      if !o.writeOk then
        (StepOut.brk { s2 with playbackError := true },
         ke.2 ++ [Event.decodeChunk, Event.writeChunk])
      else
        let s3 := { s2 with framesPlayed := s2.framesPlayed + framesRead
                            currentFramePos := sfSeekCur total s2.pos 0 }
        let pu := progressUpdate total s3.framesPlayed s3.lastPercent
        (StepOut.next { s3 with lastPercent := pu.1 },
         ke.2 ++ [Event.decodeChunk, Event.writeChunk] ++ pu.2)

/-- The `while (!should_stop)` loop of the libsndfile branches. -/
def sndRunLoop (rate total : Int) (iter : Nat → SndIter) :
    Nat → Nat → SndState → Option (SndState × List Event)
  | 0, _, s => if s.shouldStop then some (s, []) else none
  | fuel + 1, i, s =>
    if s.shouldStop then some (s, [])
    else
      match sndLoopBody rate total (iter i) s with
      | (StepOut.brk s1, evs) => some (s1, evs)
      | (StepOut.next s1, evs) =>
        match sndRunLoop rate total iter fuel (i + 1) s1 with
        | some (s2, evs2) => some (s2, evs ++ evs2)
        | none => none

/-! ## Whole sessions: resource ledger, terminal mode and return code

The ledger counts handle acquisitions and releases: the decoder handle is the
`mpg123_handle` (released by `mpg123_delete`) resp. the `SNDFILE*` (released
by `sf_close`); the output handle is the `pa_simple*` stream (released by
`pa_simple_free`).  The terminal mode is carried as a flag (`true` = the raw
mode installed by `tcsetattr(..., new_tio)`); `term0` is the mode found at
session start, which the cleanup code re-installs from `old_tio`.
(`getch` internally saves and restores the settings around each one-byte read
and therefore has no net effect on the mode; it is not tracked.) -/

/-- Resource acquisition/release counters for one session. -/
structure Ledger where
  decoderOpened : Nat
  decoderReleased : Nat
  outputOpened : Nat
  outputReleased : Nat
deriving DecidableEq, Repr

/-- Ledger at session entry: nothing acquired. -/
def ledger0 : Ledger := ⟨0, 0, 0, 0⟩

/-- Everything a session run exposes: the return code, the resource ledger,
the terminal mode at return, and the event trace. -/
structure SessionOut where
  code : Int
  ledger : Ledger
  termRaw : Bool
  events : List Event
deriving DecidableEq, Repr

/-- Oracle outcomes for the library calls of an mpg123 session's opening
sequence. -/
structure Mp3Env where
  initOk : Bool        -- mpg123_init
  newOk : Bool         -- mpg123_new returns a handle
  openOk : Bool        -- mpg123_open
  getFormatOk : Bool   -- mpg123_getformat
  setFormatOk : Bool   -- mpg123_format
  paNewOk : Bool       -- pa_simple_new
  rate : Int           -- OUTPUT_RATE
  totalFrames : Int    -- mpg123_length (negative when unknown)
  iter : Nat → Mp3Iter

/-- The mpg123 branch of `playerWithControls` (`audio.cpp` lines 515-773).
Every early error return releases exactly what was acquired (`mpg123_delete`
after `mpg123_new` succeeded, plus `mpg123_close` once the file was opened);
the terminal is switched to raw mode only after the opening sequence
succeeded, and the cleanup block restores `old_tio`, drains only when the
loop ended without error and without a stop request, frees the PulseAudio
stream and deletes the decoder handle. -/
def playerWithControlsMp3 (env : Mp3Env) (term0 : Bool) (fuel : Nat) :
    Option SessionOut :=
  if !env.initOk then some ⟨1, ledger0, term0, []⟩
  else if !env.newOk then some ⟨1, ledger0, term0, []⟩
  else if !env.openOk then
    some ⟨1, { ledger0 with decoderOpened := 1, decoderReleased := 1 }, term0, []⟩
  else if !env.getFormatOk then
    some ⟨1, { ledger0 with decoderOpened := 1, decoderReleased := 1 }, term0, []⟩
  else if !env.setFormatOk then
    some ⟨1, { ledger0 with decoderOpened := 1, decoderReleased := 1 }, term0, []⟩
  else if !env.paNewOk then
    some ⟨1, { ledger0 with decoderOpened := 1, decoderReleased := 1 }, term0, []⟩
  else
    -- terminal switched to raw mode (old_tio := term0), stdin non-blocking
    match mp3RunLoop env.rate env.totalFrames env.iter fuel 0 mp3Init with
    | none => none
    | some (sEnd, evs) =>
      let drainEvs :=
        if !sEnd.playbackError && !sEnd.shouldStop then [Event.drainOutput]
        else []
      some ⟨if sEnd.playbackError then 1 else if sEnd.shouldStop then 2 else 0,
            ⟨1, 1, 1, 1⟩, term0, evs ++ drainEvs⟩

/-- The mpg123 branch of `player` (`audio.cpp` lines 113-304): identical
opening/cleanup sequence but no terminal manipulation, no transport controls,
and return code `playback_error ? 1 : 0`. -/
def playerMp3 (env : Mp3Env) (term0 : Bool) (fuel : Nat) :
    Option SessionOut :=
  if !env.initOk then some ⟨1, ledger0, term0, []⟩
  else if !env.newOk then some ⟨1, ledger0, term0, []⟩
  else if !env.openOk then
    some ⟨1, { ledger0 with decoderOpened := 1, decoderReleased := 1 }, term0, []⟩
  else if !env.getFormatOk then
    some ⟨1, { ledger0 with decoderOpened := 1, decoderReleased := 1 }, term0, []⟩
  else if !env.setFormatOk then
    some ⟨1, { ledger0 with decoderOpened := 1, decoderReleased := 1 }, term0, []⟩
  else if !env.paNewOk then
    some ⟨1, { ledger0 with decoderOpened := 1, decoderReleased := 1 }, term0, []⟩
  else
    match plainMp3RunLoop env.totalFrames env.iter fuel 0 mp3Init with
    | none => none
    | some (sEnd, evs) =>
      let drainEvs := if !sEnd.playbackError then [Event.drainOutput] else []
      some ⟨if sEnd.playbackError then 1 else 0,
            ⟨1, 1, 1, 1⟩, term0, evs ++ drainEvs⟩

/-- Oracle outcomes for the library calls of a libsndfile session. -/
structure SndEnv where
  sfOpenOk : Bool      -- sf_open returns a handle
  paNewOk : Bool       -- pa_simple_new
  samplerate : Int     -- sfinfo.samplerate
  frames : Int         -- sfinfo.frames (total length)
  iter : Nat → SndIter

/-- The libsndfile branch shared by `player` (`audio.cpp` lines 306-498) and
`playerWithControls` (lines 775-970); the two bodies are identical apart from
banner strings.  `sf_open` failure returns before anything else is acquired;
`pa_simple_new` failure closes the sound file and returns; otherwise the
terminal is put into raw mode, the loop runs, and the cleanup restores the
terminal, drains only on a clean finish, frees the stream and closes the
file, returning `playback_error ? 1 : (should_stop ? 2 : 0)`. -/
def sndSession (env : SndEnv) (term0 : Bool) (fuel : Nat) :
    Option SessionOut :=
  if !env.sfOpenOk then some ⟨1, ledger0, term0, []⟩
  else if !env.paNewOk then
    some ⟨1, { ledger0 with decoderOpened := 1, decoderReleased := 1 }, term0, []⟩
  else
    match sndRunLoop env.samplerate env.frames env.iter fuel 0 sndInit with
    | none => none
    | some (sEnd, evs) =>
      let drainEvs :=
        if !sEnd.playbackError && !sEnd.shouldStop then [Event.drainOutput]
        else []
      some ⟨if sEnd.playbackError then 1 else if sEnd.shouldStop then 2 else 0,
            ⟨1, 1, 1, 1⟩, term0, evs ++ drainEvs⟩

/-- Oracles for a whole `player`/`playerWithControls` call: the initial
`fopen` existence check plus the per-branch environments. -/
structure PlayerEnv where
  fopenOk : Bool
  mp3 : Mp3Env
  snd : SndEnv

/-- `playerWithControls` (`audio.cpp` lines 502-971): `fopen` existence check,
then dispatch on `isMP3File`. -/
def playerWithControls (filename : List Char) (env : PlayerEnv) (term0 : Bool)
    (fuel : Nat) : Option SessionOut :=
  if !env.fopenOk then some ⟨1, ledger0, term0, []⟩
  else if isMP3File filename then playerWithControlsMp3 env.mp3 term0 fuel
  else sndSession env.snd term0 fuel

/-- `player` (`audio.cpp` lines 100-499): `fopen` existence check, then
dispatch on `isMP3File`. -/
def player (filename : List Char) (env : PlayerEnv) (term0 : Bool)
    (fuel : Nat) : Option SessionOut :=
  if !env.fopenOk then some ⟨1, ledger0, term0, []⟩
  else if isMP3File filename then playerMp3 env.mp3 term0 fuel
  else sndSession env.snd term0 fuel

/-! ## Playlist traversal drivers (`audio.cpp` lines 977-1246)

The drivers walk the playlist and invoke `playerWithControls` per entry.  The
session invocations are abstracted by a `results` oracle giving the return
code of the `k`-th invoked session and a `cont` oracle giving the user's
answer to the continue-after-error prompt (`true` = continue). -/

/-- One playlist entry: `(song path, artist)` as read from a `node`. -/
structure Entry where
  song : String
  artist : String
deriving DecidableEq, Repr

/-- Placeholder entry (only used by `List.getD` at indices proven in range). -/
def dfltEntry : Entry := ⟨"", ""⟩

/-- What a traversal driver did: the entries it invoked sessions for (in
order), how many continue-after-error prompts it showed, whether it halted
early, and the playlist it leaves behind (the drivers never mutate it). -/
structure DriverOut where
  plays : List Entry
  prompts : Nat
  haltedEarly : Bool
  finalList : List Entry
deriving DecidableEq, Repr

/-- Per-track protocol shared by the sequential and reverse drivers
(`audio.cpp` lines 1009-1027, 1134-1154): play the entry; on result 2 halt the
whole traversal at once; on any other non-zero result prompt Y/N and halt
unless the answer is Y; on 0 advance.  Walks the remaining entries in order;
`k` is the index of the next session invocation. -/
def driveTracks (results : Nat → Int) (cont : Nat → Bool) :
    List Entry → Nat → List Entry × Nat × Bool
  | [], _ => ([], 0, false)
  | e :: rest, k =>
    let r := results k
    if r = 2 then ([e], 0, true)
    else if r ≠ 0 then
      if cont k then
        let t := driveTracks results cont rest (k + 1)
        (e :: t.1, t.2.1 + 1, t.2.2)
      else ([e], 1, true)
    else
      let t := driveTracks results cont rest (k + 1)
      (e :: t.1, t.2.1, t.2.2)

/-- `playWithControls` (`audio.cpp` lines 977-1040): sequential traversal,
head to tail, `list.len` tracks. -/
def playWithControlsDriver (l : List Entry) (results : Nat → Int)
    (cont : Nat → Bool) : DriverOut :=
  if l.isEmpty then ⟨[], 0, false, l⟩
  else
    let t := driveTracks results cont l 0
    ⟨t.1, t.2.1, t.2.2, l⟩

/-- `playWithControlsSingle` (`audio.cpp` lines 1043-1089): play the entry at
the user's validated 1-based position `choice`, once, ignoring the session
result (no prompt, no further tracks). -/
def playWithControlsSingleDriver (l : List Entry) (choice : Nat)
    (results : Nat → Int) : DriverOut :=
  if l.isEmpty then ⟨[], 0, false, l⟩
  else ⟨[l.getD (choice - 1) dfltEntry], 0, false, l⟩

/-- The stack push phase of `playWithControlsReverse` (`audio.cpp` lines
1106-1115 with `Stack::push`, `link.cpp` lines 54-58): walk the circular list
head to tail, pushing each node; the stack is a cons-list with its top at the
head.  Returns the final stack and the push order. -/
def stackPushPhase : List Entry → List Entry → List Entry × List Entry
  | [], st => (st, [])
  | e :: rest, st =>
    let t := stackPushPhase rest (e :: st)
    (t.1, e :: t.2)

/-- `playWithControlsReverse` (`audio.cpp` lines 1092-1167): push every entry
onto a stack, then pop and play until the stack is empty (`Stack::pop`,
`link.cpp` lines 62-71, returns the head), with the shared per-track
protocol.  Also reports the push order for inspection. -/
def playWithControlsReverseDriver (l : List Entry) (results : Nat → Int)
    (cont : Nat → Bool) : DriverOut × List Entry :=
  if l.isEmpty then (⟨[], 0, false, l⟩, [])
  else
    let ph := stackPushPhase l []
    let t := driveTracks results cont ph.1 0
    (⟨t.1, t.2.1, t.2.2, l⟩, ph.2)

/-- The body of the repeat loop (`audio.cpp` lines 1195-1241): `m` tracks
remain to be attempted, `i` is the loop counter (session index), `j` the
current position in the circular list (advanced by `temp = temp->next`, i.e.
cyclic increment). -/
def repeatTracks (l : List Entry) (results : Nat → Int) (cont : Nat → Bool) :
    Nat → Nat → Nat → List Entry × Nat × Bool
  | 0, _, _ => ([], 0, false)
  | m + 1, i, j =>
    let e := l.getD j dfltEntry
    let r := results i
    if r = 2 then ([e], 0, true)
    else if r ≠ 0 then
      if cont i then
        let t := repeatTracks l results cont m (i + 1) ((j + 1) % l.length)
        (e :: t.1, t.2.1 + 1, t.2.2)
      else ([e], 1, true)
    else
      let t := repeatTracks l results cont m (i + 1) ((j + 1) % l.length)
      (e :: t.1, t.2.1, t.2.2)

/-- `playWithControlsRepeat` (`audio.cpp` lines 1170-1246): guard against an
empty list and non-positive rounds, then run `n * rounds` tracks walking the
circular list across round boundaries. -/
def playWithControlsRepeatDriver (l : List Entry) (rounds : Int)
    (results : Nat → Int) (cont : Nat → Bool) : DriverOut :=
  if l.isEmpty then ⟨[], 0, false, l⟩
  else if rounds ≤ 0 then ⟨[], 0, false, l⟩
  else
    let t := repeatTracks l results cont (l.length * rounds.toNat) 0 0
    ⟨t.1, t.2.1, t.2.2, l⟩

/-! ## The circular linked list (`link.cpp` / `link.h`)

Pointer-level embedding: nodes live in a heap addressed by `Nat`; `next` is an
`Option Nat` (`none` = `nullptr`).  `new` allocates at the next fresh address;
`delete` marks a cell unallocated.  Dereferencing or deleting an unallocated
address, and loops that would not terminate, make the whole operation return
`none` (undefined behaviour).  The `len` field is an `Int` like the C++ `int`
member. -/

/-- A `node` (`link.h` lines 16-24): song path, artist, next pointer. -/
structure LNode where
  song : String
  artist : String
  next : Option Nat
deriving DecidableEq, Repr

/-- The heap of `node` allocations: contents per address, plus the lowest
never-used address (all allocations happen below `fresh`). -/
structure LHeap where
  mem : Nat → Option LNode
  fresh : Nat

/-- `new node(song, artist)`: allocate at the fresh address with
`next = nullptr` (the constructor default). -/
def LHeap.alloc (h : LHeap) (song artist : String) : LHeap × Nat :=
  (⟨fun a => if a = h.fresh then some ⟨song, artist, none⟩ else h.mem a,
    h.fresh + 1⟩, h.fresh)

/-- Read `p->next`; `none` if `p` is unallocated (UB). -/
def LHeap.readNext (h : LHeap) (a : Nat) : Option (Option Nat) :=
  (h.mem a).map LNode.next

/-- Write `p->next = v`; `none` if `p` is unallocated (UB). -/
def LHeap.writeNext (h : LHeap) (a : Nat) (v : Option Nat) : Option LHeap :=
  match h.mem a with
  | none => none
  | some nd =>
      some ⟨fun b => if b = a then some { nd with next := v } else h.mem b,
            h.fresh⟩

/-- `delete p`; `none` if `p` is not currently allocated (double free /
invalid free, UB). -/
def LHeap.free (h : LHeap) (a : Nat) : Option LHeap :=
  match h.mem a with
  | none => none
  | some _ => some ⟨fun b => if b = a then none else h.mem b, h.fresh⟩

/-- Pointwise update of a heap's contents (the shape every `alloc`,
`writeNext` and `free` result takes). -/
def memUpd (m : Nat → Option LNode) (a : Nat) (v : Option LNode) :
    Nat → Option LNode :=
  fun b => if b = a then v else m b

/-- A `LinkedList` object (`link.h` lines 27-32): the `head` pointer and the
`len` counter, together with the heap its nodes live in. -/
structure LState where
  heap : LHeap
  head : Option Nat
  len : Int

/-- The empty list over an empty heap (`LinkedList::LinkedList`). -/
def lInit : LState :=
  ⟨⟨fun _ => none, 0⟩, none, 0⟩

/-- The `while (last->next != head)` walk used by `add_beg`, `add_end` and
`del_beg` to find the node whose `next` points back at `head`.  Fuel-bounded;
`none` models a walk that dereferences an invalid pointer or does not reach
such a node within the fuel. -/
def findLast (h : LHeap) (headA : Nat) : Nat → Nat → Option Nat
  | _, 0 => none
  | cur, fuel + 1 =>
    match h.mem cur with
    | none => none
    | some nd =>
      if nd.next = some headA then some cur
      else
        match nd.next with
        | some nxt => findLast h headA nxt fuel
        | none => none

/-- The `for (i = 1; i < stop; ++i) { if (temp->next == head) break;
temp = temp->next; }` walk of `add_at` (`link.cpp` lines 137-141), taking
`steps` iterations with the safety break. -/
def advanceBreak (h : LHeap) (headA : Nat) : Nat → Nat → Option Nat
  | cur, 0 => some cur
  | cur, steps + 1 =>
    match h.mem cur with
    | none => none
    | some nd =>
      if nd.next = some headA then some cur
      else
        match nd.next with
        | some nxt => advanceBreak h headA nxt steps
        | none => none

/-- The `del_at` middle walk (`link.cpp` lines 225-229): like `advanceBreak`
but also tracking the `follow` pointer (the node before `temp`). -/
def advanceFollow (h : LHeap) (headA : Nat) :
    Nat → Option Nat → Nat → Option (Option Nat × Nat)
  | cur, follow, 0 => some (follow, cur)
  | cur, follow, steps + 1 =>
    match h.mem cur with
    | none => none
    | some nd =>
      if nd.next = some headA then some (follow, cur)
      else
        match nd.next with
        | some nxt => advanceFollow h headA nxt (some cur) steps
        | none => none

/-- The `del_end` walk (`link.cpp` lines 189-195): advance `temp` until it is
the last node, keeping `follow` one node behind. -/
def lastWithFollow (h : LHeap) (headA : Nat) :
    Nat → Option Nat → Nat → Option (Option Nat × Nat)
  | _, _, 0 => none
  | cur, follow, fuel + 1 =>
    match h.mem cur with
    | none => none
    | some nd =>
      if nd.next = some headA then some (follow, cur)
      else
        match nd.next with
        | some nxt => lastWithFollow h headA nxt (some cur) fuel
        | none => none

/-- `LinkedList::add_beg` (`link.cpp` lines 75-94). -/
def add_beg (s : LState) (song artist : String) : Option LState :=
  let al := s.heap.alloc song artist
  let h1 := al.1
  let a := al.2
  match s.head with
  | none => do
      -- head = newNode; newNode->next = head
      let h2 ← h1.writeNext a (some a)
      some ⟨h2, some a, s.len + 1⟩
  | some hd => do
      let last ← findLast h1 hd hd (s.len.toNat + 1)
      -- newNode->next = head; head = newNode; last->next = head(new)
      let h2 ← h1.writeNext a (some hd)
      let h3 ← h2.writeNext last (some a)
      some ⟨h3, some a, s.len + 1⟩

/-- `LinkedList::add_end` (`link.cpp` lines 98-116). -/
def add_end (s : LState) (song artist : String) : Option LState :=
  let al := s.heap.alloc song artist
  let h1 := al.1
  let a := al.2
  match s.head with
  | none => do
      let h2 ← h1.writeNext a (some a)
      some ⟨h2, some a, s.len + 1⟩
  | some hd => do
      let last ← findLast h1 hd hd (s.len.toNat + 1)
      -- temp->next = newNode; newNode->next = head
      let h2 ← h1.writeNext last (some a)
      let h3 ← h2.writeNext a (some hd)
      some ⟨h3, some hd, s.len + 1⟩

/-- `LinkedList::add_at` (`link.cpp` lines 120-146). -/
def add_at (s : LState) (song artist : String) (pos : Int) : Option LState :=
  if pos < 1 ∨ pos > s.len + 1 then some s
  else if pos = 1 then add_beg s song artist
  else if pos = s.len + 1 then add_end s song artist
  else
    match s.head with
    | none => none  -- unreachable: 1 < pos ≤ len forces a non-empty list
    | some hd => do
      let al := s.heap.alloc song artist
      let h1 := al.1
      let a := al.2
      let temp ← advanceBreak h1 hd hd (pos - 2).toNat
      let tn ← h1.readNext temp
      -- newNode->next = temp->next; temp->next = newNode
      let h2 ← h1.writeNext a tn
      let h3 ← h2.writeNext temp (some a)
      some ⟨h3, some hd, s.len + 1⟩

/-- `LinkedList::del_beg` (`link.cpp` lines 150-172).  The `len--` happens
before the case split, as in the source. -/
def del_beg (s : LState) : Option LState :=
  match s.head with
  | none => some s
  | some hd =>
    let len1 := s.len - 1
    do
      let hn ← s.heap.readNext hd
      if hn = some hd then do
        let h1 ← s.heap.free hd
        some ⟨h1, none, len1⟩
      else do
        let last ← findLast s.heap hd hd (s.len.toNat + 1)
        -- head = head->next; last->next = head; delete temp
        let h1 ← s.heap.writeNext last hn
        let h2 ← h1.free hd
        some ⟨h2, hn, len1⟩

/-- `LinkedList::del_end` (`link.cpp` lines 176-200). -/
def del_end (s : LState) : Option LState :=
  match s.head with
  | none => some s
  | some hd =>
    let len1 := s.len - 1
    do
      let hn ← s.heap.readNext hd
      if hn = some hd then do
        let h1 ← s.heap.free hd
        some ⟨h1, none, len1⟩
      else do
        let fl ← lastWithFollow s.heap hd hd none (s.len.toNat + 1)
        match fl.1 with
        | none => none  -- follow still nullptr: null dereference
        | some follow => do
          -- follow->next = head; delete temp
          let h1 ← s.heap.writeNext follow (some hd)
          let h2 ← h1.free fl.2
          some ⟨h2, some hd, len1⟩

/-- `LinkedList::del_at` (`link.cpp` lines 204-236). -/
def del_at (s : LState) (pos : Int) : Option LState :=
  match s.head with
  | none => some s
  | some hd =>
    if pos < 1 ∨ pos > s.len then some s
    else if pos = 1 then del_beg s
    else if pos = s.len then del_end s
    else do
      let fl ← advanceFollow s.heap hd hd none (pos - 1).toNat
      match fl.1 with
      | none => none  -- follow still nullptr: null dereference
      | some follow => do
        let tn ← s.heap.readNext fl.2
        -- follow->next = temp->next; delete temp; len--
        let h1 ← s.heap.writeNext follow tn
        let h2 ← h1.free fl.2
        some ⟨h2, some hd, s.len - 1⟩

/-- The deletion walk of `clear` (`link.cpp` lines 288-292):
`while (current != nullptr) { nodeToDelete = current;
current = current->next; delete nodeToDelete; }`. -/
def clearLoop (h : LHeap) : Option Nat → Nat → Option LHeap
  | none, _ => some h
  | some _, 0 => none
  | some cur, fuel + 1 =>
    match h.mem cur with
    | none => none  -- reading current->next from a freed node: UB
    | some nd => do
      let h1 ← h.free cur
      clearLoop h1 nd.next fuel

/-- `LinkedList::clear` (`link.cpp` lines 271-300): break the circle by
nulling `head->next`, free the walk starting at the old `head->next`, then
`delete head` once more.  In any properly circular non-empty list the walk
itself already reaches and frees `head` (via the last node's `next`), so the
final `delete head` is a double free and the operation is undefined. -/
def clear (s : LState) : Option LState :=
  match s.head with
  | none => some s
  | some hd => do
    let hn ← s.heap.readNext hd
    match hn with
    | none => do
        -- the "single node that's not properly circular" safety branch
        let h1 ← s.heap.free hd
        some ⟨h1, none, 0⟩
    | some second => do
        let h1 ← s.heap.writeNext hd none
        let h2 ← clearLoop h1 (some second) (s.len.toNat + 2)
        let h3 ← h2.free hd
        some ⟨h3, none, 0⟩

/-- The list-mutating operations of `LinkedList` named in the claim. -/
inductive LOp
  | add_beg (song artist : String)
  | add_end (song artist : String)
  | add_at (song artist : String) (pos : Int)
  | del_beg
  | del_end
  | del_at (pos : Int)
  | clear
deriving Repr

/-- Apply one operation. -/
def applyOp (s : LState) : LOp → Option LState
  | LOp.add_beg song artist => add_beg s song artist
  | LOp.add_end song artist => add_end s song artist
  | LOp.add_at song artist pos => add_at s song artist pos
  | LOp.del_beg => del_beg s
  | LOp.del_end => del_end s
  | LOp.del_at pos => del_at s pos
  | LOp.clear => clear s

/-- Run a sequence of operations from the empty list. -/
def runOps (ops : List LOp) : Option LState :=
  ops.foldl (fun acc op => acc.bind (fun s => applyOp s op)) (some lInit)

/-- Follow the `next` pointer `k` times from `a` (`none` on a null or invalid
dereference). -/
def followNext (h : LHeap) : Nat → Nat → Option Nat
  | a, 0 => some a
  | a, k + 1 =>
    match h.mem a with
    | none => none
    | some nd =>
      match nd.next with
      | some b => followNext h b k
      | none => none

/-! ## Auxiliary definitions used by the theorem statements -/

/-- The state carried by a loop-body outcome, whether the body finished
normally or broke out of the loop. -/
def stepState {σ : Type} : StepOut σ → σ
  | StepOut.next s => s
  | StepOut.brk s => s

/-- Resource correctness of one finished session: every acquired handle was
released exactly once (releases match acquisitions, and each handle is
acquired at most once), and the terminal is back in the mode `term0` it had
when the session started. -/
def sessionBalanced (term0 : Bool) (out : SessionOut) : Prop :=
  out.ledger.decoderReleased = out.ledger.decoderOpened ∧
    out.ledger.decoderOpened ≤ 1 ∧
    out.ledger.outputReleased = out.ledger.outputOpened ∧
    out.ledger.outputOpened ≤ 1 ∧
    out.termRaw = term0

/-- The session result is one of the three codes 0 / 1 / 2. -/
def codeInTriState (out : SessionOut) : Prop :=
  out.code = 0 ∨ out.code = 1 ∨ out.code = 2

/-- All library calls of the mpg123 opening sequence succeed. -/
def mp3OpenOk (env : Mp3Env) : Prop :=
  env.initOk = true ∧ env.newOk = true ∧ env.openOk = true ∧
    env.getFormatOk = true ∧ env.setFormatOk = true ∧ env.paNewOk = true

/-- An iteration oracle in which the user presses `'s'` (or `'S'`) and the
rest of the iteration encounters no decode error and no write failure. -/
def stopKeyIter (o : Mp3Iter) : Prop :=
  (o.key = some 's' ∨ o.key = some 'S') ∧ o.read ≠ Mp3Read.err ∧
    o.writeOk = true

/-- An all-succeeding mpg123 environment over a given iteration oracle
(44.1 kHz, 10 s of audio), used for concrete witness runs. -/
def mp3EnvAllOk (it : Nat → Mp3Iter) : Mp3Env :=
  ⟨true, true, true, true, true, true, 44100, 441000, it⟩

/-- An all-succeeding libsndfile environment over a given iteration oracle. -/
def sndEnvAllOk (it : Nat → SndIter) : SndEnv :=
  ⟨true, true, 44100, 441000, it⟩

/-- An all-succeeding whole-player environment. -/
def playerEnvAllOk (itM : Nat → Mp3Iter) (itS : Nat → SndIter) : PlayerEnv :=
  ⟨true, mp3EnvAllOk itM, sndEnvAllOk itS⟩

/-- Iteration oracle: no key pending, decoder reports end of stream. -/
def mp3IterDone : Mp3Iter := ⟨none, true, Mp3Read.done, true⟩

/-- Iteration oracle: no key pending, reader at end of file. -/
def sndIterEOF : SndIter := ⟨none, 0, true⟩

/-- Iteration oracle: the user presses `'s'` and the decode of the same
iteration then fails hard. -/
def mp3IterStopThenErr : Mp3Iter := ⟨some 's', true, Mp3Read.err, true⟩

/-- Outcome of the all-ok one-chunkless mpg123 witness run: clean finish,
code 0, all handles released, terminal restored. -/
def c1WitnessOut : SessionOut :=
  ⟨0, ⟨1, 1, 1, 1⟩, true, [Event.decodeChunk, Event.drainOutput]⟩

/-- How far one iteration's `mpg123_read` advances the decode position:
the chunk's frame count on a successful read, 0 on `done` / `newFormat` /
error. -/
def mp3ReadAdvance (o : Mp3Iter) : Int :=
  match o.read with
  | Mp3Read.chunk frames => (frames : Int)
  | _ => 0

/-- The state after running one loop-body iteration per oracle in `os`
(taking the body's resulting state whether it finished or broke). -/
def mp3StepChain (rate total : Int) (os : List Mp3Iter) (s : Mp3State) :
    Mp3State :=
  os.foldl (fun st o => stepState (mp3LoopBody rate total o st).1) s

/-- A `Mp3Iter` key that is neither the pause toggle nor a seek command. -/
def nonControlKey (key : Option Char) : Prop :=
  key ≠ some ' ' ∧ key ≠ some 'j' ∧ key ≠ some 'k'

/-- The loop state after a pause-then-resume pair: one iteration receiving
the pause toggle `o1`, then the iterations `os` (e.g. idle polls while
paused), then one iteration receiving the resume toggle `o2`. -/
def mp3PauseResumeFinal (rate total : Int) (o1 : Mp3Iter) (os : List Mp3Iter)
    (o2 : Mp3Iter) (s : Mp3State) : Mp3State :=
  stepState (mp3LoopBody rate total o2
    (mp3StepChain rate total os (stepState (mp3LoopBody rate total o1 s).1))).1

/-- Heap list segment: `chain m a l b` holds when, starting at address `a`,
the addresses in `l` are consecutive allocated cells linked by their `next`
pointers, the last one pointing at `b` (for `l = []`, simply `a = b`). -/
inductive chain (m : Nat → Option LNode) : Nat → List Nat → Nat → Prop
  | nil (a : Nat) : chain m a [] a
  | cons {a b c : Nat} {nd : LNode} {l : List Nat} :
      m a = some nd → nd.next = some b → chain m b l c →
      chain m a (a :: l) c

/-- The circular-list representation invariant: either the list is empty
(`head = nullptr`, `len = 0`), or `head` starts a non-empty duplicate-free
cycle `addrs` of allocated nodes whose length is `len`, every node lying
below the allocation watermark. -/
def listRep (s : LState) (addrs : List Nat) : Prop :=
  match s.head with
  | none => addrs = [] ∧ s.len = 0
  | some h =>
      chain s.heap.mem h addrs h ∧ addrs ≠ [] ∧ addrs.Nodup ∧
        s.len = (addrs.length : Int) ∧ ∀ a ∈ addrs, a < s.heap.fresh

/-- A `LState` that represents some well-formed circular list. -/
def goodList (s : LState) : Prop :=
  ∃ addrs, listRep s addrs

/-- The state reached from the empty list by one `add_beg("x", "y")`:
a single self-linked node at address 0 (heap written out as the two
successive pointer writes leave it). -/
def c10WitnessState : LState :=
  ⟨⟨fun b => if b = 0 then some ⟨"x", "y", some 0⟩
      else if b = 0 then some ⟨"x", "y", none⟩ else none, 1⟩, some 0, 1⟩

/-- Progress-reporter invariant of the mpg123 loop (for a known total):
the display position is non-negative and never ahead of the decoder, and
`last_percent` is either the initial sentinel `-1` or a value not above the
percent of the current display position. -/
def mp3ProgressInv (total : Int) (s : Mp3State) : Prop :=
  0 ≤ s.currentFramePos ∧ s.currentFramePos ≤ s.decoderPos ∧
    (s.lastPercent = -1 ∨ s.lastPercent ≤ percentOf total s.currentFramePos)

/-- Progress-reporter invariant of the libsndfile loop (for a known total):
`frames_played` is non-negative and `last_percent` is either the sentinel
`-1` or not above the percent of `frames_played`. -/
def sndProgressInv (total : Int) (s : SndState) : Prop :=
  0 ≤ s.framesPlayed ∧
    (s.lastPercent = -1 ∨ s.lastPercent ≤ percentOf total s.framesPlayed)

/-! # Theorems -/

/-! ## C9: format classification -/

/-- Any list of four elements is literally a four-element list. -/
theorem list_length_four {α : Type} (v : List α) (h : v.length = 4) :
    ∃ a b c d : α, v = [a, b, c, d] := by
  match v, h with
  | [a, b, c, d], _ => exact ⟨a, b, c, d, rfl⟩

/-- The two four-character suffix tests agree: reading the last four
characters forward (`mp3SuffixPattern`) or the reversed string backward
(`specEndsInMp3CI`) checks the same four character conditions. -/
theorem suffix_pattern_agrees (u : List Char) (a b c d : Char) :
    specEndsInMp3CI (u ++ [a, b, c, d]) = mp3SuffixPattern [a, b, c, d] := by
  unfold specEndsInMp3CI mp3SuffixPattern
  have h : (u ++ [a, b, c, d]).reverse = d :: c :: b :: a :: u.reverse := by
    simp
  rw [h]
  cases hd : decide (a = '.') <;> cases h3 : decide (d = '3') <;>
    cases hm : (decide (b = 'm') || decide (b = 'M')) <;>
    cases hp : (decide (c = 'p') || decide (c = 'P')) <;>
    simp [hd, h3, hm, hp]

/-- C9 (counterexample): the claim says the classifier returns `FrameCoded`
IF AND ONLY IF the name ends in `.mp3` case-insensitively, for every file
name.  The file name `"a\n.mp3"` ends in `.mp3`, yet the source regex
`.*\.[mM][pP]3$` cannot match it, because the ECMAScript `.` does not match
the line-terminator `'\n'`; the classifier therefore returns `SampleCoded`. -/
theorem c9_counterexample :
    specEndsInMp3CI "a\n.mp3".toList = true ∧
      classifyFormat "a\n.mp3".toList = FormatFamily.SampleCoded := by
  constructor
  · decide
  · decide

/-- C9 (amended): the classifier returns `FrameCoded` iff the name ends in
`.mp3` case-insensitively AND no character before that suffix is a line
terminator (`'\n'`/`'\r'`) — a consequence of `regex_match` with ECMAScript
`.`, which excludes line terminators; `SampleCoded` in every other case,
including unrecognized extensions and extensionless names. -/
theorem c9_amended (l : List Char) :
    classifyFormat l = FormatFamily.FrameCoded ↔
      (specEndsInMp3CI l = true ∧
        ((l.take (l.length - 4)).all fun c => !(isLineTerminator c)) = true) := by
  unfold classifyFormat isMP3File
  by_cases hge : 4 ≤ l.length
  · obtain ⟨a, b, c, d, hv⟩ :=
      list_length_four (l.drop (l.length - 4)) (by simp; omega)
    have hdec : l = l.take (l.length - 4) ++ [a, b, c, d] := by
      rw [← hv, List.take_append_drop]
    have hspec : specEndsInMp3CI l = mp3SuffixPattern (l.drop (l.length - 4)) := by
      conv_lhs => rw [hdec]
      rw [suffix_pattern_agrees, hv]
    rw [hspec]
    have hge' : decide (4 ≤ l.length) = true := by simpa using hge
    simp only [hge', Bool.true_and]
    by_cases hp : mp3SuffixPattern (l.drop (l.length - 4)) = true <;>
      by_cases hall : ((l.take (l.length - 4)).all fun c => !(isLineTerminator c)) = true <;>
      simp [hp, hall]
  · have hspec : specEndsInMp3CI l = false := by
      unfold specEndsInMp3CI
      have hrl : l.reverse.length < 4 := by simp; omega
      rcases hr : l.reverse with _ | ⟨a, _ | ⟨b, _ | ⟨c, _ | ⟨d, t⟩⟩⟩⟩ <;>
        simp_all <;> omega
    simp [hge, hspec]

/-- C9 (amended, witness): the scenarios from the spec evaluated concretely:
`"Song.MP3"` is frame-coded; `"track.wav"`, `"track.flac"`, `"track.ogg"`
and `"noext"` are sample-coded. -/
theorem c9_amended_witness :
    classifyFormat "Song.MP3".toList = FormatFamily.FrameCoded ∧
      classifyFormat "track.wav".toList = FormatFamily.SampleCoded ∧
      classifyFormat "track.flac".toList = FormatFamily.SampleCoded ∧
      classifyFormat "track.ogg".toList = FormatFamily.SampleCoded ∧
      classifyFormat "noext".toList = FormatFamily.SampleCoded := by
  refine ⟨(c9_amended "Song.MP3".toList).mpr (by decide), ?_, ?_, ?_, ?_⟩ <;> decide

/-! ## C2: seek-forward -/

/-- C2 (counterexample): the claim requires the new position after `'k'` to be
`min(T-1, cur + 10*rate)` in BOTH backend variants.  In the sample-coded
variant with `rate = 1`, `total = 5`, `cur = 0`, the handler asks the backend
for position 10 without clamping; the backend rejects it and the recovery
seeks to 0, so the new position is 0, not `min(4, 10) = 4`. -/
theorem c2_counterexample :
    sndSeekForwardResult 1 5 0 = 0 ∧
      sndSeekForwardResult 1 5 0 ≠ min (5 - 1 : Int) (0 + 10 * 1) := by
  constructor
  · decide
  · decide

/-- C2 (amended): in the frame-coded variant the claim holds exactly: with
known total the decoder is asked for `min(T-1, cur + 10*rate)`, with unknown
total no seek request is issued.  The sample-coded variant has no clamping
and no unknown-length guard: the backend is asked for `cur + 10*rate`
unclamped; if that target lies within the file it becomes the new position
(it may equal `total`, i.e. end of file, rather than being capped at `T-1`),
otherwise the backend rejects it and the position falls back to 0. -/
theorem c2_amended :
    (∀ rate cur total : Int, total > 0 →
        mp3SeekForwardRequest rate cur total =
          some (min (total - 1) (cur + 10 * rate))) ∧
    (∀ rate cur total : Int, total ≤ 0 →
        mp3SeekForwardRequest rate cur total = none) ∧
    (∀ rate total pos : Int, 0 ≤ pos + 10 * rate → pos + 10 * rate ≤ total →
        sndSeekForwardResult rate total pos = pos + 10 * rate) ∧
    (∀ rate total pos : Int, total < pos + 10 * rate ∨ pos + 10 * rate < 0 →
        sndSeekForwardResult rate total pos = 0) := by
  refine ⟨?_, ?_, ?_, ?_⟩
  · intro rate cur total ht
    simp only [mp3SeekForwardRequest]
    rw [if_pos ht]
    split_ifs with h2 <;> simp only [Option.some.injEq] <;> omega
  · intro rate cur total ht
    simp only [mp3SeekForwardRequest]
    rw [if_neg (by omega)]
  · intro rate total pos h0 hT
    simp only [sndSeekForwardResult, sfSeekCur]
    split_ifs <;> omega
  · intro rate total pos h
    simp only [sndSeekForwardResult, sfSeekCur]
    split_ifs <;> omega

/-- C2 (amended, witness): concrete instances discharging each hypothesis:
`rate = 2`, `cur = 3`, `total = 100` (known total, in-range clamp);
`total = -1` (unknown, refused); sample-coded `rate = 1`, `pos = 5`,
`total = 100` (in-range) and `total = 5` (rejected, falls back to 0). -/
theorem c2_amended_witness :
    mp3SeekForwardRequest 2 90 100 = some (min (100 - 1) (90 + 10 * 2)) ∧
      mp3SeekForwardRequest 2 3 (-1) = none ∧
      sndSeekForwardResult 1 100 5 = 5 + 10 * 1 ∧
      sndSeekForwardResult 1 5 0 = 0 :=
  ⟨c2_amended.1 2 90 100 (by decide),
   c2_amended.2.1 2 3 (-1) (by decide),
   c2_amended.2.2.1 1 100 5 (by decide) (by decide),
   c2_amended.2.2.2 1 5 0 (Or.inl (by decide))⟩

/-! ## C3: seek-back -/

/-- C3 (counterexample): the claim says a position before 0 is never requested
of the backend.  In the sample-coded variant with `rate = 1` at position 0,
the `'j'` handler calls `sf_seek(sndfile, -10, SEEK_CUR)`, i.e. requests
position `-10 < 0` (the fallback to 0 only happens after the backend rejects
this request). -/
theorem c3_counterexample :
    (sndKeyDispatch 1 5 'j' sndInit).2 = [Event.seekRequest (-10)] ∧
      ((-10 : Int) < 0) := by
  constructor
  · decide
  · decide

/-- C3 (amended): the resulting decoder position after `'j'` is
`max(0, cur - 10*rate)` in both variants (in the sample-coded variant because
a rejected out-of-range request falls back to an explicit seek to 0).  The
frame-coded variant clamps before issuing and never requests a negative
position (it issues no request at all from position 0); the sample-coded
variant requests the unclamped target `cur - 10*rate`, which is negative
whenever `cur < 10*rate`, relying on backend rejection plus the fallback. -/
theorem c3_amended :
    (∀ rate cur : Int, 0 ≤ cur → 0 ≤ rate →
        mp3SeekBackResult rate cur = max 0 (cur - 10 * rate)) ∧
    (∀ rate cur target : Int, mp3SeekBackRequest rate cur = some target →
        0 ≤ target) ∧
    (∀ rate total pos : Int, 0 ≤ pos → pos ≤ total → 0 ≤ rate →
        sndSeekBackResult rate total pos = max 0 (pos - 10 * rate)) ∧
    (∀ rate total pos : Int, pos - 10 * rate < 0 →
        sndSeekBackResult rate total pos = 0) := by
  refine ⟨?_, ?_, ?_, ?_⟩
  · intro rate cur hc hr
    simp only [mp3SeekBackResult, mp3SeekBackRequest]
    split_ifs <;> simp only [] <;> omega
  · intro rate cur target h
    simp only [mp3SeekBackRequest] at h
    split_ifs at h <;> simp only [Option.some.injEq] at h <;> omega
  · intro rate total pos h0 hT hr
    simp only [sndSeekBackResult, sfSeekCur]
    split_ifs <;> omega
  · intro rate total pos h
    simp only [sndSeekBackResult, sfSeekCur]
    split_ifs <;> omega

/-- C3 (amended, witness): concrete instances: frame-coded at `cur = 25`,
`rate = 2` gives `max(0, 5) = 5` and the request `some 5` is non-negative;
sample-coded at `pos = 3`, `rate = 1`, `total = 50` gives `max(0, -7) = 0`,
and the rejected request case yields 0. -/
theorem c3_amended_witness :
    mp3SeekBackResult 2 25 = max 0 (25 - 10 * 2) ∧
      (0 : Int) ≤ 5 ∧
      sndSeekBackResult 1 50 3 = max 0 (3 - 10 * 1) ∧
      sndSeekBackResult 1 50 3 = 0 :=
  ⟨c3_amended.1 2 25 (by decide) (by decide),
   c3_amended.2.1 2 25 5 (by decide),
   c3_amended.2.2.1 1 50 3 (by decide) (by decide) (by decide),
   c3_amended.2.2.2 1 50 3 (by decide)⟩

/-! ## C1: resource and terminal safety on every exit path -/

/-- Every terminating run of the `playerWithControls` mpg123 branch —
including each early error return of the opening sequence — releases every
acquired handle exactly once and returns with the terminal in its original
mode. -/
theorem playerWithControlsMp3_balanced (env : Mp3Env) (term0 : Bool)
    (fuel : Nat) (out : SessionOut)
    (h : playerWithControlsMp3 env term0 fuel = some out) :
    sessionBalanced term0 out := by
  unfold playerWithControlsMp3 at h
  split_ifs at h <;> (try split at h) <;> (try injection h with h) <;>
    (try subst h) <;> simp_all [sessionBalanced, ledger0]

/-- Every terminating run of the `player` mpg123 branch releases every
acquired handle exactly once and never touches the terminal mode. -/
theorem playerMp3_balanced (env : Mp3Env) (term0 : Bool)
    (fuel : Nat) (out : SessionOut)
    (h : playerMp3 env term0 fuel = some out) :
    sessionBalanced term0 out := by
  unfold playerMp3 at h
  split_ifs at h <;> (try split at h) <;> (try injection h with h) <;>
    (try subst h) <;> simp_all [sessionBalanced, ledger0]

/-- Every terminating run of the libsndfile branch releases every acquired
handle exactly once and returns with the terminal in its original mode. -/
theorem sndSession_balanced (env : SndEnv) (term0 : Bool)
    (fuel : Nat) (out : SessionOut)
    (h : sndSession env term0 fuel = some out) :
    sessionBalanced term0 out := by
  unfold sndSession at h
  split_ifs at h <;> (try split at h) <;> (try injection h with h) <;>
    (try subst h) <;> simp_all [sessionBalanced, ledger0]

/-- C1: for every playback session (`player` or `playerWithControls`), over
every oracle environment and on every exit path — success, error (including
early error exits that never reach the playback loop) or user stop — the
terminal is restored to the mode it had before the session started, and the
decoder handle and the output-stream handle are each released exactly as many
times as they were acquired (at most once: no leak, no double release). -/
theorem c1_cleanup_on_every_exit :
    (∀ (fname : List Char) (env : PlayerEnv) (term0 : Bool) (fuel : Nat)
        (out : SessionOut), player fname env term0 fuel = some out →
        sessionBalanced term0 out) ∧
    (∀ (fname : List Char) (env : PlayerEnv) (term0 : Bool) (fuel : Nat)
        (out : SessionOut), playerWithControls fname env term0 fuel = some out →
        sessionBalanced term0 out) := by
  constructor
  · intro fname env term0 fuel out h
    unfold player at h
    split_ifs at h
    · injection h with h; subst h; simp_all [sessionBalanced, ledger0]
    · exact playerMp3_balanced env.mp3 term0 fuel out h
    · exact sndSession_balanced env.snd term0 fuel out h
  · intro fname env term0 fuel out h
    unfold playerWithControls at h
    split_ifs at h
    · injection h with h; subst h; simp_all [sessionBalanced, ledger0]
    · exact playerWithControlsMp3_balanced env.mp3 term0 fuel out h
    · exact sndSession_balanced env.snd term0 fuel out h

/-- C1 (witness): a concrete terminating `playerWithControls` run (all
library calls succeed, the decoder immediately reports end of stream)
evaluates to a clean code-0 outcome, and the theorem applies to it. -/
theorem c1_cleanup_witness :
    playerWithControls "song.mp3".toList
        (playerEnvAllOk (fun _ => mp3IterDone) (fun _ => sndIterEOF))
        true 2 = some c1WitnessOut ∧
      sessionBalanced true c1WitnessOut :=
  ⟨by decide,
   c1_cleanup_on_every_exit.2 "song.mp3".toList
     (playerEnvAllOk (fun _ => mp3IterDone) (fun _ => sndIterEOF))
     true 2 c1WitnessOut (by decide)⟩

/-! ## C4: stop semantics, tri-state return codes, traversal halting -/

/-- The push phase turns the head-to-tail walk into a reversed stack while
recording the push order. -/
theorem stackPushPhase_eq (l st : List Entry) :
    stackPushPhase l st = (l.reverse ++ st, l) := by
  induction l generalizing st with
  | nil => simp [stackPushPhase]
  | cons e rest ih =>
    simp [stackPushPhase, ih (e :: st)]

/-- Pushing onto an initially empty stack yields exactly the reversed list. -/
theorem stackPushPhase_nil (l : List Entry) :
    stackPushPhase l [] = (l.reverse, l) := by
  rw [stackPushPhase_eq]
  simp

/-- Every terminating `playerWithControls` mpg123 run returns 0, 1 or 2. -/
theorem playerWithControlsMp3_code (env : Mp3Env) (term0 : Bool)
    (fuel : Nat) (out : SessionOut)
    (h : playerWithControlsMp3 env term0 fuel = some out) :
    codeInTriState out := by
  unfold playerWithControlsMp3 at h
  split_ifs at h <;> (try split at h) <;> (try injection h with h) <;>
    (try subst h) <;> simp_all [codeInTriState] <;> (split_ifs <;> simp_all)

/-- Every terminating `player` mpg123 run returns 0 or 1. -/
theorem playerMp3_code (env : Mp3Env) (term0 : Bool)
    (fuel : Nat) (out : SessionOut)
    (h : playerMp3 env term0 fuel = some out) :
    codeInTriState out := by
  unfold playerMp3 at h
  split_ifs at h <;> (try split at h) <;> (try injection h with h) <;>
    (try subst h) <;> simp_all [codeInTriState] <;> (split_ifs <;> simp_all)

/-- Every terminating libsndfile run returns 0, 1 or 2. -/
theorem sndSession_code (env : SndEnv) (term0 : Bool)
    (fuel : Nat) (out : SessionOut)
    (h : sndSession env term0 fuel = some out) :
    codeInTriState out := by
  unfold sndSession at h
  split_ifs at h <;> (try split at h) <;> (try injection h with h) <;>
    (try subst h) <;> simp_all [codeInTriState] <;> (split_ifs <;> simp_all)

/-- Dispatching `'s'` or `'S'` latches the stop request and changes nothing
else. -/
theorem mp3KeyDispatch_stop (rate total : Int) (seekOk : Bool) (k : Char)
    (s : Mp3State) (hk : k = 's' ∨ k = 'S') :
    mp3KeyDispatch rate total seekOk k s = ({ s with shouldStop := true }, []) := by
  rcases hk with hk | hk <;> subst hk <;> simp [mp3KeyDispatch]

/-- A loop iteration that receives `'s'`/`'S'` in the un-paused state and then
encounters no decode error and no write failure ends with the stop flag
latched and the error flag unchanged. -/
theorem mp3LoopBody_stop (rate total : Int) (o : Mp3Iter) (s : Mp3State)
    (hp : s.isPaused = false) (hk : stopKeyIter o) :
    (stepState (mp3LoopBody rate total o s).1).shouldStop = true ∧
      (stepState (mp3LoopBody rate total o s).1).playbackError =
        s.playbackError := by
  obtain ⟨hkey, hread, hwrite⟩ := hk
  obtain ⟨key, seekOk, read, writeOk⟩ := o
  simp only at hkey hread hwrite
  have hkey' : key = some 's' ∨ key = some 'S' := hkey
  have hk2 : ∃ c, key = some c ∧ (c = 's' ∨ c = 'S') := by
    rcases hkey' with h | h
    · exact ⟨'s', h, Or.inl rfl⟩
    · exact ⟨'S', h, Or.inr rfl⟩
  obtain ⟨c, hc, hcs⟩ := hk2
  subst hc
  subst hwrite
  unfold mp3LoopBody
  simp only [mp3KeyDispatch_stop rate total seekOk c s hcs]
  cases read with
  | done => simp [hp, stepState]
  | newFormat => simp [hp, stepState]
  | err => exact absurd rfl hread
  | chunk frames =>
    by_cases hf : frames = 0 <;> simp [hp, stepState, hf, progressUpdate] <;>
      split_ifs <;> simp [stepState]

/-- The progress reporter never emits the drain event. -/
theorem progressUpdate_no_drain (total pos last : Int) :
    Event.drainOutput ∉ (progressUpdate total pos last).2 := by
  by_cases h1 : total > 0 <;> by_cases h2 : percentOf total pos = last <;>
    simp [progressUpdate, h1, h2]

/-- The transport controller never emits the drain event. -/
theorem mp3KeyDispatch_no_drain (rate total : Int) (seekOk : Bool) (k : Char)
    (s : Mp3State) :
    Event.drainOutput ∉ (mp3KeyDispatch rate total seekOk k s).2 := by
  unfold mp3KeyDispatch
  cases hb : mp3SeekBackRequest rate s.currentFramePos <;>
    cases hf : mp3SeekForwardRequest rate s.currentFramePos total <;>
    split_ifs <;> simp [hb, hf]

/-- Loop iterations never emit the drain event (it belongs to the cleanup
block after the loop). -/
theorem mp3LoopBody_no_drain (rate total : Int) (o : Mp3Iter) (s : Mp3State) :
    Event.drainOutput ∉ (mp3LoopBody rate total o s).2 := by
  obtain ⟨key, seekOk, read, writeOk⟩ := o
  cases key with
  | none =>
    cases read <;> simp only [mp3LoopBody] <;> split_ifs <;>
        simp_all [progressUpdate_no_drain]
  | some k =>
    have hk := mp3KeyDispatch_no_drain rate total seekOk k s
    cases read <;> simp only [mp3LoopBody] <;> split_ifs <;>
        simp_all [progressUpdate_no_drain]

/-- The `while` loop of the mpg123 branch never emits the drain event. -/
theorem mp3RunLoop_no_drain (rate total : Int) (iter : Nat → Mp3Iter) :
    ∀ (fuel i : Nat) (s sEnd : Mp3State) (evs : List Event),
      mp3RunLoop rate total iter fuel i s = some (sEnd, evs) →
      Event.drainOutput ∉ evs := by
  intro fuel
  induction fuel with
  | zero =>
    intro i s sEnd evs h
    unfold mp3RunLoop at h
    split_ifs at h
    injection h with h
    injection h with h1 h2
    subst h2
    simp
  | succ fuel ih =>
    intro i s sEnd evs h
    unfold mp3RunLoop at h
    split_ifs at h
    · injection h with h
      injection h with h1 h2
      subst h2
      simp
    · split at h
      case _ s1 evs1 heq =>
        injection h with h
        injection h with h1 h2
        subst h2
        have hb := mp3LoopBody_no_drain rate total (iter i) s
        rw [heq] at hb
        simpa using hb
      case _ s1 evs1 heq =>
        split at h
        case _ s2 evs2 hrec =>
          injection h with h
          injection h with h1 h2
          subst h2
          have hb := mp3LoopBody_no_drain rate total (iter i) s
          rw [heq] at hb
          intro hmem
          rcases List.mem_append.mp hmem with hm | hm
          · have hb' : Event.drainOutput ∉ evs1 := by simpa using hb
            exact hb' hm
          · exact ih (i + 1) s1 s2 evs2 hrec hm
        case _ hrec =>
          exact absurd h (by simp)

/-- Receiving `'s'`/`'S'` makes the loop terminate within the current
iteration (plus the re-check of the loop condition), with the stop flag set
and the error flag still clear — provided the remainder of that iteration
hits no decode/write failure. -/
theorem mp3RunLoop_stop (rate total : Int) (iter : Nat → Mp3Iter)
    (fuel i : Nat) (s : Mp3State) (hp : s.isPaused = false)
    (hs : s.shouldStop = false) (he : s.playbackError = false)
    (hk : stopKeyIter (iter i)) :
    ∃ sEnd evs, mp3RunLoop rate total iter (fuel + 2) i s = some (sEnd, evs) ∧
      sEnd.shouldStop = true ∧ sEnd.playbackError = false := by
  have hb := mp3LoopBody_stop rate total (iter i) s hp hk
  rcases hbody : mp3LoopBody rate total (iter i) s with ⟨st, evs1⟩
  rw [hbody] at hb
  cases st with
  | brk s1 =>
    refine ⟨s1, evs1, ?_, ?_, ?_⟩
    · unfold mp3RunLoop
      rw [if_neg (by simp [hs]), hbody]
    · simpa [stepState] using hb.1
    · rw [← he]
      simpa [stepState] using hb.2
  | next s1 =>
    have h1 : s1.shouldStop = true := by simpa [stepState] using hb.1
    refine ⟨s1, evs1 ++ [], ?_, h1, ?_⟩
    · have hrec : mp3RunLoop rate total iter (fuel + 1) (i + 1) s1 =
          some (s1, []) := by
        unfold mp3RunLoop
        rw [if_pos h1]
      show mp3RunLoop rate total iter (fuel + 1 + 1) i s = _
      unfold mp3RunLoop
      rw [if_neg (by simp [hs]), hbody]
      dsimp only
      rw [hrec]
    · rw [← he]
      simpa [stepState] using hb.2

/-- The amended per-session stop property: with the opening sequence
succeeding and the user's `'s'` arriving in the first loop iteration (the
session is then in Playing), a `playerWithControls` mpg123 session terminates,
skips the drain, releases everything and returns 2 — as long as the remainder
of that final iteration encounters no decode/write error. -/
theorem playerWithControlsMp3_stop (env : Mp3Env) (term0 : Bool) (fuel : Nat)
    (hopen : mp3OpenOk env) (hk : stopKeyIter (env.iter 0)) :
    ∃ evs, playerWithControlsMp3 env term0 (fuel + 2) =
        some ⟨2, ⟨1, 1, 1, 1⟩, term0, evs⟩ ∧
      Event.drainOutput ∉ evs := by
  obtain ⟨h1, h2, h3, h4, h5, h6⟩ := hopen
  obtain ⟨sEnd, evs, hrun, hstop, herr⟩ :=
    mp3RunLoop_stop env.rate env.totalFrames env.iter fuel 0 mp3Init rfl rfl
      rfl hk
  refine ⟨evs, ?_, mp3RunLoop_no_drain env.rate env.totalFrames env.iter
    (fuel + 2) 0 mp3Init sEnd evs hrun⟩
  unfold playerWithControlsMp3
  rw [h1, h2, h3, h4, h5, h6]
  simp only [Bool.not_true, Bool.false_eq_true, if_false]
  rw [hrun]
  simp [hstop, herr]

/-- Per-track protocol: when the sessions for the first `k` remaining tracks
succeed and the `(k+1)`-st returns 2, the walk plays exactly those `k + 1`
tracks, shows no prompt, and halts. -/
theorem driveTracks_stop_at (results : Nat → Int) (cont : Nat → Bool) :
    ∀ (l : List Entry) (j k : Nat), k < l.length →
      (∀ i, i < k → results (j + i) = 0) → results (j + k) = 2 →
      driveTracks results cont l j = (l.take (k + 1), 0, true) := by
  intro l
  induction l with
  | nil => intro j k hk _ _; simp at hk
  | cons e rest ih =>
    intro j k hk hok h2
    cases k with
    | zero =>
      have h2' : results j = 2 := by simpa using h2
      simp [driveTracks, h2']
    | succ k =>
      have h0 : results j = 0 := by simpa using hok 0 (by omega)
      simp only [driveTracks, h0]
      rw [if_neg (by omega), if_neg (by simp)]
      rw [ih (j + 1) k (by simpa using hk)
        (fun i hi => by
          have h' := hok (i + 1) (by omega)
          have he : j + 1 + i = j + (i + 1) := by omega
          rw [he]
          exact h')
        (by
          have he : j + 1 + k = j + (k + 1) := by omega
          rw [he]
          exact h2)]
      simp [List.take]

/-- Repeat walk: when the sessions for the first `k` tracks succeed and the
`(k+1)`-st returns 2, the walk plays exactly those `k + 1` cyclic entries,
shows no prompt, and halts. -/
theorem repeatTracks_stop_at (l : List Entry) (results : Nat → Int)
    (cont : Nat → Bool) :
    ∀ (k m i j : Nat), k + 1 ≤ m → j < l.length →
      (∀ t, t < k → results (i + t) = 0) → results (i + k) = 2 →
      repeatTracks l results cont m i j =
        ((List.range (k + 1)).map
          (fun t => l.getD ((j + t) % l.length) dfltEntry), 0, true) := by
  intro k
  induction k with
  | zero =>
    intro m i j hm hj hok h2
    obtain ⟨m', rfl⟩ : ∃ m', m = m' + 1 := ⟨m - 1, by omega⟩
    have h2' : results i = 2 := by simpa using h2
    simp [repeatTracks, h2', List.range_succ, Nat.mod_eq_of_lt hj]
  | succ k ih =>
    intro m i j hm hj hok h2
    obtain ⟨m', rfl⟩ : ∃ m', m = m' + 1 := ⟨m - 1, by omega⟩
    have h0 : results i = 0 := by simpa using hok 0 (by omega)
    simp only [repeatTracks, h0]
    rw [if_neg (by omega), if_neg (by simp)]
    have hn : 0 < l.length := by omega
    conv_rhs => rw [List.range_succ_eq_map]
    rw [ih m' (i + 1) ((j + 1) % l.length) (by omega) (Nat.mod_lt _ hn)
      (fun t ht => by
        have h' := hok (t + 1) (by omega)
        have he : i + 1 + t = i + (t + 1) := by omega
        rw [he]
        exact h')
      (by
        have he : i + 1 + k = i + (k + 1) := by omega
        rw [he]
        exact h2)]
    simp only [List.map_cons, List.map_map, Prod.mk.injEq, and_true]
    congr 1
    · rw [Nat.add_zero, Nat.mod_eq_of_lt hj]
    · apply List.map_congr_left
      intro t _
      simp only [Function.comp_apply]
      rw [Nat.mod_add_mod]
      congr 2
      omega

/-- C4 (counterexample): the claim says that pressing `'s'` during Playing
makes the session return 2.  But the stop flag does not short-circuit the
rest of the loop iteration: with `'s'` received at iteration 0 and the decode
of that same iteration failing hard, `playback_error` wins and the session
returns 1, not 2 (`return playback_error ? 1 : (should_stop ? 2 : 0)`). -/
theorem c4_counterexample :
    ((mp3EnvAllOk (fun _ => mp3IterStopThenErr)).iter 0).key = some 's' ∧
      (playerWithControlsMp3 (mp3EnvAllOk (fun _ => mp3IterStopThenErr))
          false 3).map SessionOut.code = some 1 := by
  constructor
  · rfl
  · decide

/-- C4 (amended): every playback entry point returns only 0/1/2; pressing
`'s'`/`'S'` in Playing terminates the loop, skips the drain and returns 2
PROVIDED the remainder of that iteration hits no decode/write error (an error
there takes precedence and yields 1); and every traversal driver that
receives 2 halts the whole traversal at once, without prompting: the
sequential driver after playing `k+1` tracks plays exactly the first `k+1`
list entries, the reverse driver exactly the first `k+1` entries of the
reversed list, the repeat driver exactly the first `k+1` cyclic entries, and
the single-track driver never plays more than one track nor prompts. -/
theorem c4_amended :
    (∀ (fname : List Char) (env : PlayerEnv) (term0 : Bool) (fuel : Nat)
        (out : SessionOut), player fname env term0 fuel = some out →
        codeInTriState out) ∧
    (∀ (fname : List Char) (env : PlayerEnv) (term0 : Bool) (fuel : Nat)
        (out : SessionOut), playerWithControls fname env term0 fuel = some out →
        codeInTriState out) ∧
    (∀ (env : Mp3Env) (term0 : Bool) (fuel : Nat), mp3OpenOk env →
        stopKeyIter (env.iter 0) →
        ∃ evs, playerWithControlsMp3 env term0 (fuel + 2) =
            some ⟨2, ⟨1, 1, 1, 1⟩, term0, evs⟩ ∧
          Event.drainOutput ∉ evs) ∧
    (∀ (l : List Entry) (results : Nat → Int) (cont : Nat → Bool) (k : Nat),
        k < l.length → (∀ i, i < k → results i = 0) → results k = 2 →
        playWithControlsDriver l results cont = ⟨l.take (k + 1), 0, true, l⟩) ∧
    (∀ (l : List Entry) (results : Nat → Int) (cont : Nat → Bool) (k : Nat),
        k < l.length → (∀ i, i < k → results i = 0) → results k = 2 →
        (playWithControlsReverseDriver l results cont).1 =
          ⟨l.reverse.take (k + 1), 0, true, l⟩) ∧
    (∀ (l : List Entry) (rounds : Int) (results : Nat → Int)
        (cont : Nat → Bool) (k : Nat), l ≠ [] → 1 ≤ rounds →
        k + 1 ≤ l.length * rounds.toNat →
        (∀ i, i < k → results i = 0) → results k = 2 →
        playWithControlsRepeatDriver l rounds results cont =
          ⟨(List.range (k + 1)).map (fun t => l.getD (t % l.length) dfltEntry),
            0, true, l⟩) ∧
    (∀ (l : List Entry) (choice : Nat) (results : Nat → Int),
        (playWithControlsSingleDriver l choice results).plays.length ≤ 1 ∧
          (playWithControlsSingleDriver l choice results).prompts = 0) := by
  refine ⟨?_, ?_, ?_, ?_, ?_, ?_, ?_⟩
  · intro fname env term0 fuel out h
    unfold player at h
    split_ifs at h
    · injection h with h; subst h; simp [codeInTriState]
    · exact playerMp3_code env.mp3 term0 fuel out h
    · exact sndSession_code env.snd term0 fuel out h
  · intro fname env term0 fuel out h
    unfold playerWithControls at h
    split_ifs at h
    · injection h with h; subst h; simp [codeInTriState]
    · exact playerWithControlsMp3_code env.mp3 term0 fuel out h
    · exact sndSession_code env.snd term0 fuel out h
  · intro env term0 fuel hopen hk
    exact playerWithControlsMp3_stop env term0 fuel hopen hk
  · intro l results cont k hk hok h2
    have hne : l.isEmpty = false := by
      cases l with
      | nil => simp at hk
      | cons a t => rfl
    unfold playWithControlsDriver
    rw [hne]
    simp only [Bool.false_eq_true, if_false]
    rw [driveTracks_stop_at results cont l 0 k hk (by simpa using hok)
      (by simpa using h2)]
  · intro l results cont k hk hok h2
    have hne : l.isEmpty = false := by
      cases l with
      | nil => simp at hk
      | cons a t => rfl
    unfold playWithControlsReverseDriver
    rw [hne]
    simp only [Bool.false_eq_true, if_false, stackPushPhase_nil]
    rw [driveTracks_stop_at results cont l.reverse 0 k
      (by simpa using hk) (by simpa using hok) (by simpa using h2)]
  · intro l rounds results cont k hne hr hk hok h2
    have hE : l.isEmpty = false := by
      cases l with
      | nil => exact absurd rfl hne
      | cons a t => rfl
    have hn : 0 < l.length := by
      cases l with
      | nil => exact absurd rfl hne
      | cons a t => simp
    unfold playWithControlsRepeatDriver
    rw [hE]
    simp only [Bool.false_eq_true, if_false]
    rw [if_neg (by omega)]
    rw [repeatTracks_stop_at l results cont k (l.length * rounds.toNat) 0 0
      hk hn (by simpa using hok) (by simpa using h2)]
    simp
  · intro l choice results
    unfold playWithControlsSingleDriver
    split_ifs <;> simp

/-- C4 (amended, witness): concrete instances: a clean all-ok mpg123 session
with `'s'` pressed at iteration 0 returns 2 without draining; the sequential
driver over three tracks whose second session returns 2 plays exactly two
tracks and stops without prompting. -/
theorem c4_amended_witness :
    (∃ evs, playerWithControlsMp3
        (mp3EnvAllOk (fun _ => ⟨some 's', true, Mp3Read.done, true⟩)) true
        (1 + 2) = some ⟨2, ⟨1, 1, 1, 1⟩, true, evs⟩ ∧
        Event.drainOutput ∉ evs) ∧
      playWithControlsDriver [⟨"a", "A"⟩, ⟨"b", "B"⟩, ⟨"c", "C"⟩]
          (fun i => if i = 1 then 2 else 0) (fun _ => true) =
        ⟨[⟨"a", "A"⟩, ⟨"b", "B"⟩], 0, true,
          [⟨"a", "A"⟩, ⟨"b", "B"⟩, ⟨"c", "C"⟩]⟩ :=
  ⟨c4_amended.2.2.1 (mp3EnvAllOk (fun _ => ⟨some 's', true, Mp3Read.done, true⟩))
      true 1 ⟨rfl, rfl, rfl, rfl, rfl, rfl⟩ ⟨Or.inl rfl, by decide, rfl⟩,
    by
      rw [c4_amended.2.2.2.1 [⟨"a", "A"⟩, ⟨"b", "B"⟩, ⟨"c", "C"⟩]
        (fun i => if i = 1 then 2 else 0) (fun _ => true) 1 (by decide)
        (by intro i hi; interval_cases i; rfl) (by decide)]
      rfl⟩

/-! ## C5: pause semantics -/

/-- Transport dispatch (mpg123): the pause flag toggles exactly on `' '`,
`current_frame_pos` and `last_percent` never change, and the decode position
changes only on the seek keys. -/
theorem mp3KeyDispatch_preserve (rate total : Int) (seekOk : Bool) (k : Char)
    (s : Mp3State) :
    ((mp3KeyDispatch rate total seekOk k s).1).isPaused =
        (if k = ' ' then !s.isPaused else s.isPaused) ∧
      ((mp3KeyDispatch rate total seekOk k s).1).lastPercent = s.lastPercent ∧
      (k ≠ 'j' → k ≠ 'k' →
        ((mp3KeyDispatch rate total seekOk k s).1).decoderPos = s.decoderPos) ∧
      ((mp3KeyDispatch rate total seekOk k s).1).currentFramePos =
        s.currentFramePos := by
  unfold mp3KeyDispatch
  cases hb : mp3SeekBackRequest rate s.currentFramePos <;>
    cases hf : mp3SeekForwardRequest rate s.currentFramePos total <;>
    split_ifs <;> simp_all

/-- Transport dispatch (mpg123) emits at most a single seek-request event. -/
theorem mp3KeyDispatch_events (rate total : Int) (seekOk : Bool) (k : Char)
    (s : Mp3State) :
    (mp3KeyDispatch rate total seekOk k s).2 = [] ∨
      ∃ t, (mp3KeyDispatch rate total seekOk k s).2 = [Event.seekRequest t] := by
  unfold mp3KeyDispatch
  cases hb : mp3SeekBackRequest rate s.currentFramePos <;>
    cases hf : mp3SeekForwardRequest rate s.currentFramePos total <;>
    split_ifs <;> simp_all

/-- A paused mpg123 iteration (whose key, if any, is not the resume toggle)
does not leave the loop, performs no decode and no write, sleeps, and stays
paused. -/
theorem mp3LoopBody_paused (rate total : Int) (o : Mp3Iter) (s : Mp3State)
    (hp : s.isPaused = true) (hk : o.key ≠ some ' ') :
    (mp3LoopBody rate total o s).1 =
        StepOut.next (stepState (mp3LoopBody rate total o s).1) ∧
      Event.decodeChunk ∉ (mp3LoopBody rate total o s).2 ∧
      Event.writeChunk ∉ (mp3LoopBody rate total o s).2 ∧
      Event.sleepPaused ∈ (mp3LoopBody rate total o s).2 ∧
      (stepState (mp3LoopBody rate total o s).1).isPaused = true := by
  rcases hkey : o.key with _ | k
  · simp [mp3LoopBody, hkey, hp, stepState]
  · have hne : k ≠ ' ' := by
      rintro rfl
      exact hk hkey
    have hpd := (mp3KeyDispatch_preserve rate total o.seekOk k s).1
    rw [if_neg hne] at hpd
    have hpd' : ((mp3KeyDispatch rate total o.seekOk k s).1).isPaused = true :=
      hpd.trans hp
    have hev := mp3KeyDispatch_events rate total o.seekOk k s
    simp only [mp3LoopBody, hkey]
    rw [if_pos hpd']
    refine ⟨rfl, ?_, ?_, by simp, by simp [stepState, hpd']⟩ <;>
      rcases hev with hev | ⟨t, hev⟩ <;> simp [hev]

/-- A paused mpg123 iteration with no pause/seek key leaves the decode
position untouched. -/
theorem mp3LoopBody_paused_pos (rate total : Int) (o : Mp3Iter) (s : Mp3State)
    (hp : s.isPaused = true) (hk : nonControlKey o.key) :
    (stepState (mp3LoopBody rate total o s).1).decoderPos = s.decoderPos ∧
      (stepState (mp3LoopBody rate total o s).1).isPaused = true := by
  obtain ⟨hsp, hj, hkk⟩ := hk
  rcases hkey : o.key with _ | k
  · simp [mp3LoopBody, hkey, hp, stepState]
  · have hne : k ≠ ' ' := by rintro rfl; exact hsp hkey
    have hnj : k ≠ 'j' := by rintro rfl; exact hj hkey
    have hnk : k ≠ 'k' := by rintro rfl; exact hkk hkey
    obtain ⟨hpd, -, hpos, -⟩ := mp3KeyDispatch_preserve rate total o.seekOk k s
    rw [if_neg hne] at hpd
    have hpd' : ((mp3KeyDispatch rate total o.seekOk k s).1).isPaused = true :=
      hpd.trans hp
    simp only [mp3LoopBody, hkey]
    rw [if_pos hpd']
    exact ⟨by simpa [stepState] using hpos hnj hnk, by simp [stepState, hpd']⟩

/-- Keyboard polling continues while paused: a stop key received during a
paused iteration still latches the stop request. -/
theorem mp3LoopBody_paused_stopkey (rate total : Int) (o : Mp3Iter)
    (s : Mp3State) (hp : s.isPaused = true)
    (hkey : o.key = some 's' ∨ o.key = some 'S') :
    (stepState (mp3LoopBody rate total o s).1).shouldStop = true := by
  have hk : ∃ c, o.key = some c ∧ (c = 's' ∨ c = 'S') := by
    rcases hkey with h | h
    · exact ⟨'s', h, Or.inl rfl⟩
    · exact ⟨'S', h, Or.inr rfl⟩
  obtain ⟨c, hc, hcs⟩ := hk
  simp only [mp3LoopBody, hc]
  rw [mp3KeyDispatch_stop rate total o.seekOk c s hcs]
  simp [hp, stepState]

/-- The pause toggle from the Playing state pauses without touching the
decode position (the rest of the iteration is skipped). -/
theorem mp3LoopBody_pause_toggle (rate total : Int) (o : Mp3Iter)
    (s : Mp3State) (hp : s.isPaused = false) (hk : o.key = some ' ') :
    (stepState (mp3LoopBody rate total o s).1).isPaused = true ∧
      (stepState (mp3LoopBody rate total o s).1).decoderPos = s.decoderPos := by
  simp only [mp3LoopBody, hk]
  have hd : mp3KeyDispatch rate total o.seekOk ' ' s =
      ({ s with isPaused := !s.isPaused }, []) := by
    simp [mp3KeyDispatch]
  rw [hd]
  simp [hp, stepState]

/-- The resume toggle from a paused state resumes, and the decode position
advances exactly by that iteration's decoded chunk. -/
theorem mp3LoopBody_resume (rate total : Int) (o : Mp3Iter) (s : Mp3State)
    (hp : s.isPaused = true) (hk : o.key = some ' ') :
    (stepState (mp3LoopBody rate total o s).1).isPaused = false ∧
      (stepState (mp3LoopBody rate total o s).1).decoderPos =
        s.decoderPos + mp3ReadAdvance o := by
  simp only [mp3LoopBody, hk]
  have hd : mp3KeyDispatch rate total o.seekOk ' ' s =
      ({ s with isPaused := !s.isPaused }, []) := by
    simp [mp3KeyDispatch]
  rw [hd]
  cases hr : o.read with
  | done => simp [hp, stepState, mp3ReadAdvance, hr]
  | newFormat => simp [hp, stepState, mp3ReadAdvance, hr]
  | err => simp [hp, stepState, mp3ReadAdvance, hr]
  | chunk frames =>
    by_cases hf : frames = 0 <;> by_cases hw : o.writeOk <;>
      simp [hp, stepState, mp3ReadAdvance, hr, hf, hw, progressUpdate] <;>
      split_ifs <;> simp [stepState]

/-- The idle-paused chain keeps the pause flag and the decode position. -/
theorem mp3StepChain_paused (rate total : Int) (os : List Mp3Iter) :
    ∀ s : Mp3State, s.isPaused = true → (∀ o ∈ os, o.key = none) →
      (mp3StepChain rate total os s).isPaused = true ∧
        (mp3StepChain rate total os s).decoderPos = s.decoderPos := by
  induction os with
  | nil => intro s hp _; exact ⟨hp, rfl⟩
  | cons o os ih =>
    intro s hp hos
    have hko : o.key = none := hos o (by simp)
    have hstep := mp3LoopBody_paused_pos rate total o s hp
      (by rw [hko]; exact ⟨by simp, by simp, by simp⟩)
    have hrest := ih (stepState (mp3LoopBody rate total o s).1) hstep.2
      (fun o' ho' => hos o' (by simp [ho']))
    unfold mp3StepChain at hrest ⊢
    simp only [List.foldl_cons]
    exact ⟨hrest.1, hrest.2.trans hstep.1⟩

/-- Transport dispatch (libsndfile): pause toggles exactly on `' '`, and the
backend position changes only on the seek keys. -/
theorem sndKeyDispatch_preserve (rate total : Int) (k : Char) (s : SndState) :
    ((sndKeyDispatch rate total k s).1).isPaused =
        (if k = ' ' then !s.isPaused else s.isPaused) ∧
      (k ≠ 'j' → k ≠ 'k' →
        ((sndKeyDispatch rate total k s).1).pos = s.pos) := by
  unfold sndKeyDispatch
  split_ifs <;> simp_all

/-- Transport dispatch (libsndfile) emits at most a single seek-request
event. -/
theorem sndKeyDispatch_events (rate total : Int) (k : Char) (s : SndState) :
    (sndKeyDispatch rate total k s).2 = [] ∨
      ∃ t, (sndKeyDispatch rate total k s).2 = [Event.seekRequest t] := by
  unfold sndKeyDispatch
  split_ifs <;> simp

/-- A paused libsndfile iteration (whose key, if any, is not the resume
toggle) does not leave the loop, performs no read and no write, sleeps, and
stays paused. -/
theorem sndLoopBody_paused (rate total : Int) (o : SndIter) (s : SndState)
    (hp : s.isPaused = true) (hk : o.key ≠ some ' ') :
    (sndLoopBody rate total o s).1 =
        StepOut.next (stepState (sndLoopBody rate total o s).1) ∧
      Event.decodeChunk ∉ (sndLoopBody rate total o s).2 ∧
      Event.writeChunk ∉ (sndLoopBody rate total o s).2 ∧
      Event.sleepPaused ∈ (sndLoopBody rate total o s).2 ∧
      (stepState (sndLoopBody rate total o s).1).isPaused = true := by
  rcases hkey : o.key with _ | k
  · simp [sndLoopBody, hkey, hp, stepState]
  · have hne : k ≠ ' ' := by rintro rfl; exact hk hkey
    have hpd := (sndKeyDispatch_preserve rate total k s).1
    rw [if_neg hne] at hpd
    have hpd' : ((sndKeyDispatch rate total k s).1).isPaused = true :=
      hpd.trans hp
    have hev := sndKeyDispatch_events rate total k s
    simp only [sndLoopBody, hkey]
    rw [if_pos hpd']
    refine ⟨rfl, ?_, ?_, by simp, by simp [stepState, hpd']⟩ <;>
      rcases hev with hev | ⟨t, hev⟩ <;> simp [hev]

/-- A paused libsndfile iteration with no pause/seek key leaves the backend
position untouched. -/
theorem sndLoopBody_paused_pos (rate total : Int) (o : SndIter) (s : SndState)
    (hp : s.isPaused = true) (hk : nonControlKey o.key) :
    (stepState (sndLoopBody rate total o s).1).pos = s.pos := by
  obtain ⟨hsp, hj, hkk⟩ := hk
  rcases hkey : o.key with _ | k
  · simp [sndLoopBody, hkey, hp, stepState]
  · have hne : k ≠ ' ' := by rintro rfl; exact hsp hkey
    have hnj : k ≠ 'j' := by rintro rfl; exact hj hkey
    have hnk : k ≠ 'k' := by rintro rfl; exact hkk hkey
    obtain ⟨hpd, hpos⟩ := sndKeyDispatch_preserve rate total k s
    rw [if_neg hne] at hpd
    have hpd' : ((sndKeyDispatch rate total k s).1).isPaused = true :=
      hpd.trans hp
    simp only [sndLoopBody, hkey]
    rw [if_pos hpd']
    simpa [stepState] using hpos hnj hnk

/-- C5: while a session is paused, every loop iteration still polls and
dispatches the keyboard (a stop key received while paused is still latched)
but performs no decode and no output write, instead sleeping ~100 ms and
staying in the loop; with no pause/seek key the decoder position is
untouched.  Consequently a pause-then-resume pair around any number of idle
paused iterations leaves the decoder position unchanged except for the
single chunk decoded by the resuming iteration (chunk-boundary granularity).
Both backend variants. -/
theorem c5_pause_semantics :
    (∀ (rate total : Int) (o : Mp3Iter) (s : Mp3State), s.isPaused = true →
        o.key ≠ some ' ' →
        (mp3LoopBody rate total o s).1 =
            StepOut.next (stepState (mp3LoopBody rate total o s).1) ∧
          Event.decodeChunk ∉ (mp3LoopBody rate total o s).2 ∧
          Event.writeChunk ∉ (mp3LoopBody rate total o s).2 ∧
          Event.sleepPaused ∈ (mp3LoopBody rate total o s).2 ∧
          (stepState (mp3LoopBody rate total o s).1).isPaused = true) ∧
    (∀ (rate total : Int) (o : Mp3Iter) (s : Mp3State), s.isPaused = true →
        nonControlKey o.key →
        (stepState (mp3LoopBody rate total o s).1).decoderPos = s.decoderPos) ∧
    (∀ (rate total : Int) (o : Mp3Iter) (s : Mp3State), s.isPaused = true →
        (o.key = some 's' ∨ o.key = some 'S') →
        (stepState (mp3LoopBody rate total o s).1).shouldStop = true) ∧
    (∀ (rate total : Int) (s : Mp3State) (o1 : Mp3Iter) (os : List Mp3Iter)
        (o2 : Mp3Iter), s.isPaused = false → o1.key = some ' ' →
        (∀ o ∈ os, o.key = none) → o2.key = some ' ' →
        (mp3StepChain rate total os
            (stepState (mp3LoopBody rate total o1 s).1)).isPaused = true ∧
          (mp3StepChain rate total os
            (stepState (mp3LoopBody rate total o1 s).1)).decoderPos =
              s.decoderPos ∧
          (mp3PauseResumeFinal rate total o1 os o2 s).isPaused = false ∧
          (mp3PauseResumeFinal rate total o1 os o2 s).decoderPos =
            s.decoderPos + mp3ReadAdvance o2) ∧
    (∀ (rate total : Int) (o : SndIter) (s : SndState), s.isPaused = true →
        o.key ≠ some ' ' →
        (sndLoopBody rate total o s).1 =
            StepOut.next (stepState (sndLoopBody rate total o s).1) ∧
          Event.decodeChunk ∉ (sndLoopBody rate total o s).2 ∧
          Event.writeChunk ∉ (sndLoopBody rate total o s).2 ∧
          Event.sleepPaused ∈ (sndLoopBody rate total o s).2 ∧
          (stepState (sndLoopBody rate total o s).1).isPaused = true) ∧
    (∀ (rate total : Int) (o : SndIter) (s : SndState), s.isPaused = true →
        nonControlKey o.key →
        (stepState (sndLoopBody rate total o s).1).pos = s.pos) := by
  refine ⟨mp3LoopBody_paused, ?_, mp3LoopBody_paused_stopkey, ?_,
    sndLoopBody_paused, sndLoopBody_paused_pos⟩
  · intro rate total o s hp hk
    exact (mp3LoopBody_paused_pos rate total o s hp hk).1
  · intro rate total s o1 os o2 hp h1 hos h2
    have htog := mp3LoopBody_pause_toggle rate total o1 s hp h1
    have hchain := mp3StepChain_paused rate total os
      (stepState (mp3LoopBody rate total o1 s).1) htog.1 hos
    have hres := mp3LoopBody_resume rate total o2
      (mp3StepChain rate total os (stepState (mp3LoopBody rate total o1 s).1))
      hchain.1 h2
    refine ⟨hchain.1, hchain.2.trans htog.2, hres.1, ?_⟩
    unfold mp3PauseResumeFinal
    rw [hres.2, hchain.2, htog.2]

/-- C5 (witness): concrete instances: a paused iteration receiving `'q'`
stays paused at position 0 with only a sleep; a stop key while paused is
latched; a pause-resume pair around one idle iteration resumes at position
`0 + 7` where 7 is the chunk decoded on resume. -/
theorem c5_pause_semantics_witness :
    ((mp3LoopBody 44100 441000 ⟨some 'q', true, Mp3Read.done, true⟩
          { mp3Init with isPaused := true }).1 =
        StepOut.next (stepState (mp3LoopBody 44100 441000
          ⟨some 'q', true, Mp3Read.done, true⟩
          { mp3Init with isPaused := true }).1)) ∧
      (stepState (mp3LoopBody 44100 441000
          ⟨some 'S', true, Mp3Read.done, true⟩
          { mp3Init with isPaused := true }).1).shouldStop = true ∧
      (mp3PauseResumeFinal 44100 441000 ⟨some ' ', true, Mp3Read.done, true⟩
          [⟨none, true, Mp3Read.done, true⟩]
          ⟨some ' ', true, Mp3Read.chunk 7, true⟩ mp3Init).decoderPos =
        0 + (7 : Int) ∧
      (stepState (sndLoopBody 44100 441000 ⟨some 'q', 99, true⟩
          { sndInit with isPaused := true }).1).pos = 0 :=
  ⟨(c5_pause_semantics.1 44100 441000 ⟨some 'q', true, Mp3Read.done, true⟩
      { mp3Init with isPaused := true } rfl (by simp)).1,
   c5_pause_semantics.2.2.1 44100 441000 ⟨some 'S', true, Mp3Read.done, true⟩
      { mp3Init with isPaused := true } rfl (Or.inr rfl),
   (c5_pause_semantics.2.2.2.1 44100 441000 mp3Init
      ⟨some ' ', true, Mp3Read.done, true⟩ [⟨none, true, Mp3Read.done, true⟩]
      ⟨some ' ', true, Mp3Read.chunk 7, true⟩ rfl rfl
      (by intro o ho; simp at ho; rw [ho]) rfl).2.2.2,
   c5_pause_semantics.2.2.2.2.2 44100 441000 ⟨some 'q', 99, true⟩
      { sndInit with isPaused := true } rfl (by refine ⟨?_, ?_, ?_⟩ <;> simp)⟩

/-! ## C6: progress reporting -/

/-- The clamped percent always lies in `[0, 100]`. -/
theorem percentOf_bounds (total pos : Int) :
    0 ≤ percentOf total pos ∧ percentOf total pos ≤ 100 := by
  unfold percentOf
  generalize pos * 100 / total = x
  omega

/-- The clamped percent is monotone in the position (for a known total). -/
theorem percentOf_mono (total a b : Int) (ht : 0 < total) (h : a ≤ b) :
    percentOf total a ≤ percentOf total b := by
  unfold percentOf
  have hd : a * 100 / total ≤ b * 100 / total :=
    Int.ediv_le_ediv ht (by omega)
  omega

/-- With a known total, the reporter redraws exactly when the clamped percent
differs from `last_percent`, and then stores the drawn value. -/
theorem progressUpdate_known (total pos last : Int) (ht : total > 0) :
    (progressUpdate total pos last).2 =
        (if percentOf total pos = last then []
         else [Event.redrawBar (percentOf total pos) 25]) ∧
      (progressUpdate total pos last).1 =
        (if percentOf total pos = last then last else percentOf total pos) := by
  unfold progressUpdate
  rw [if_pos ht]
  by_cases h : percentOf total pos = last <;> simp [h]

/-- With an unknown total, the reporter emits the indeterminate indicator and
does not track a percent. -/
theorem progressUpdate_unknown (total pos last : Int) (ht : total ≤ 0) :
    progressUpdate total pos last = (last, [Event.unknownDurationTick]) := by
  unfold progressUpdate
  rw [if_neg (by omega)]

/-- Any redraw event comes from a known total, carries the clamped percent of
the displayed position and the fixed 25-cell width, differs from the previous
drawn value, and becomes the new stored value. -/
theorem progressUpdate_redraw_mem (total pos last p : Int) (w : Nat)
    (hm : Event.redrawBar p w ∈ (progressUpdate total pos last).2) :
    total > 0 ∧ p = percentOf total pos ∧ w = 25 ∧ p ≠ last ∧
      (progressUpdate total pos last).1 = p := by
  by_cases ht : total > 0
  · have hpu := progressUpdate_known total pos last ht
    rw [hpu.1] at hm
    by_cases hc : percentOf total pos = last
    · rw [if_pos hc] at hm
      simp at hm
    · rw [if_neg hc] at hm
      simp at hm
      obtain ⟨hp, hw⟩ := hm
      subst hp
      subst hw
      refine ⟨ht, rfl, rfl, hc, ?_⟩
      rw [hpu.2, if_neg hc]
  · rw [progressUpdate_unknown total pos last (by omega)] at hm
    simp at hm

/-- One mpg123 iteration without a seek key preserves the progress invariant,
and every bar redraw it performs draws a value in `[0, 100]` of width 25 that
is not below the previously drawn value. -/
theorem mp3LoopBody_progress (rate total : Int) (o : Mp3Iter) (s : Mp3State)
    (ht : 0 < total) (hj : o.key ≠ some 'j') (hk : o.key ≠ some 'k')
    (hinv : mp3ProgressInv total s) :
    mp3ProgressInv total (stepState (mp3LoopBody rate total o s).1) ∧
      ∀ (p : Int) (w : Nat),
        Event.redrawBar p w ∈ (mp3LoopBody rate total o s).2 →
        (s.lastPercent = -1 ∨ s.lastPercent ≤ p) ∧ 0 ≤ p ∧ p ≤ 100 ∧ w = 25 := by
  obtain ⟨hc0, hcd, hlp⟩ := hinv
  have main : ∀ (s1 : Mp3State) (evs1 : List Event),
      s1.currentFramePos = s.currentFramePos → s1.decoderPos = s.decoderPos →
      s1.lastPercent = s.lastPercent →
      (∀ (p : Int) (w : Nat), Event.redrawBar p w ∉ evs1) →
      ∀ (res : StepOut Mp3State × List Event),
      res = (if s1.isPaused then (StepOut.next s1, evs1 ++ [Event.sleepPaused])
        else
          match o.read with
          | Mp3Read.done => (StepOut.brk s1, evs1 ++ [Event.decodeChunk])
          | Mp3Read.newFormat => (StepOut.next s1, evs1 ++ [Event.decodeChunk])
          | Mp3Read.err =>
              (StepOut.brk { s1 with playbackError := true },
               evs1 ++ [Event.decodeChunk])
          | Mp3Read.chunk frames =>
              let s2 := { s1 with decoderPos := s1.decoderPos + frames }
              if frames = 0 then (StepOut.next s2, evs1 ++ [Event.decodeChunk])
              else if !o.writeOk then
                (StepOut.brk { s2 with playbackError := true },
                 evs1 ++ [Event.decodeChunk, Event.writeChunk])
              else
                let s3 := { s2 with currentFramePos := s2.decoderPos }
                let pu := progressUpdate total s3.currentFramePos s3.lastPercent
                (StepOut.next { s3 with lastPercent := pu.1 },
                 evs1 ++ [Event.decodeChunk, Event.writeChunk] ++ pu.2)) →
      mp3ProgressInv total (stepState res.1) ∧
        ∀ (p : Int) (w : Nat), Event.redrawBar p w ∈ res.2 →
          (s.lastPercent = -1 ∨ s.lastPercent ≤ p) ∧ 0 ≤ p ∧ p ≤ 100 ∧
            w = 25 := by
    intro s1 evs1 he1 he2 he3 hnr res hres
    by_cases hp : s1.isPaused
    · rw [if_pos hp] at hres
      subst hres
      simp only [mp3ProgressInv]
      dsimp only [stepState]
      refine ⟨⟨by omega, by omega, by rw [he3, he1]; exact hlp⟩, ?_⟩
      intro p w hmem
      rcases List.mem_append.mp hmem with hm | hm
      · exact absurd hm (hnr p w)
      · simp at hm
    · rw [if_neg hp] at hres
      cases hr : o.read with
      | done =>
        rw [hr] at hres
        dsimp only at hres
        subst hres
        simp only [mp3ProgressInv]
        dsimp only [stepState]
        refine ⟨⟨by omega, by omega, by rw [he3, he1]; exact hlp⟩, ?_⟩
        intro p w hmem
        rcases List.mem_append.mp hmem with hm | hm
        · exact absurd hm (hnr p w)
        · simp at hm
      | newFormat =>
        rw [hr] at hres
        dsimp only at hres
        subst hres
        simp only [mp3ProgressInv]
        dsimp only [stepState]
        refine ⟨⟨by omega, by omega, by rw [he3, he1]; exact hlp⟩, ?_⟩
        intro p w hmem
        rcases List.mem_append.mp hmem with hm | hm
        · exact absurd hm (hnr p w)
        · simp at hm
      | err =>
        rw [hr] at hres
        dsimp only at hres
        subst hres
        simp only [mp3ProgressInv]
        dsimp only [stepState]
        refine ⟨⟨by omega, by omega, by rw [he3, he1]; exact hlp⟩, ?_⟩
        intro p w hmem
        rcases List.mem_append.mp hmem with hm | hm
        · exact absurd hm (hnr p w)
        · simp at hm
      | chunk frames =>
        rw [hr] at hres
        dsimp only at hres
        by_cases hf : frames = 0
        · rw [if_pos hf] at hres
          subst hres
          simp only [mp3ProgressInv]
          dsimp only [stepState]
          refine ⟨⟨by omega, by omega, by rw [he3, he1]; exact hlp⟩, ?_⟩
          intro p w hmem
          rcases List.mem_append.mp hmem with hm | hm
          · exact absurd hm (hnr p w)
          · simp at hm
        · rw [if_neg hf] at hres
          by_cases hw : o.writeOk
          · rw [hw] at hres
            simp only [Bool.not_true, Bool.false_eq_true, if_false] at hres
            subst hres
            simp only [mp3ProgressInv]
            dsimp only [stepState]
            have hmono : percentOf total s.currentFramePos ≤
                percentOf total (s1.decoderPos + (frames : Int)) :=
              percentOf_mono total _ _ ht (by omega)
            have hpu := progressUpdate_known total
              (s1.decoderPos + (frames : Int)) s1.lastPercent ht
            refine ⟨⟨by omega, by omega, ?_⟩, ?_⟩
            · right
              rw [hpu.2]
              split_ifs with hcase
              · exact le_of_eq hcase.symm
              · exact le_refl _
            · intro p w hmem
              simp only [List.append_assoc, List.mem_append] at hmem
              rcases hmem with hm | hm
              · exact absurd hm (hnr p w)
              · rcases hm with hm2 | hm2
                · simp at hm2
                · obtain ⟨-, hpeq, hweq, -, -⟩ :=
                    progressUpdate_redraw_mem total _ _ p w hm2
                  subst hpeq
                  obtain ⟨hb1, hb2⟩ := percentOf_bounds total
                    (s1.decoderPos + (frames : Int))
                  refine ⟨?_, hb1, hb2, hweq⟩
                  rcases hlp with h | h
                  · exact Or.inl h
                  · exact Or.inr (h.trans hmono)
          · have hw' : o.writeOk = false := by
              cases hval : o.writeOk
              · rfl
              · exact absurd hval hw
            rw [hw'] at hres
            simp only [Bool.not_false, if_true] at hres
            subst hres
            simp only [mp3ProgressInv]
            dsimp only [stepState]
            refine ⟨⟨by omega, by omega, by rw [he3, he1]; exact hlp⟩, ?_⟩
            intro p w hmem
            rcases List.mem_append.mp hmem with hm | hm
            · exact absurd hm (hnr p w)
            · simp at hm
  rcases hkey : o.key with _ | c
  · refine main s [] rfl rfl rfl (by simp) (mp3LoopBody rate total o s) ?_
    simp [mp3LoopBody, hkey]
  · have hnj : c ≠ 'j' := by rintro rfl; exact hj hkey
    have hnk : c ≠ 'k' := by rintro rfl; exact hk hkey
    obtain ⟨-, hdl, hdp, hdc⟩ := mp3KeyDispatch_preserve rate total o.seekOk c s
    refine main (mp3KeyDispatch rate total o.seekOk c s).1
      (mp3KeyDispatch rate total o.seekOk c s).2 hdc (hdp hnj hnk) hdl
      ?_ (mp3LoopBody rate total o s) ?_
    · intro p w hmem
      rcases mp3KeyDispatch_events rate total o.seekOk c s with hev | ⟨t, hev⟩ <;>
        rw [hev] at hmem <;> simp at hmem
    · simp [mp3LoopBody, hkey]

/-- One libsndfile iteration without a seek key preserves the progress
invariant, and every bar redraw it performs draws a value in `[0, 100]` of
width 25 that is not below the previously drawn value. -/
theorem sndLoopBody_progress (rate total : Int) (o : SndIter) (s : SndState)
    (ht : 0 < total) (hj : o.key ≠ some 'j') (hk : o.key ≠ some 'k')
    (hinv : sndProgressInv total s) :
    sndProgressInv total (stepState (sndLoopBody rate total o s).1) ∧
      ∀ (p : Int) (w : Nat),
        Event.redrawBar p w ∈ (sndLoopBody rate total o s).2 →
        (s.lastPercent = -1 ∨ s.lastPercent ≤ p) ∧ 0 ≤ p ∧ p ≤ 100 ∧ w = 25 := by
  obtain ⟨hf0, hlp⟩ := hinv
  have hdfacts : ∀ c : Char, c ≠ 'j' → c ≠ 'k' →
      ((sndKeyDispatch rate total c s).1).framesPlayed = s.framesPlayed ∧
        ((sndKeyDispatch rate total c s).1).lastPercent = s.lastPercent := by
    intro c hcj hck
    unfold sndKeyDispatch
    split_ifs <;> simp_all
  have main : ∀ (s1 : SndState) (evs1 : List Event),
      s1.framesPlayed = s.framesPlayed → s1.lastPercent = s.lastPercent →
      (∀ (p : Int) (w : Nat), Event.redrawBar p w ∉ evs1) →
      ∀ (res : StepOut SndState × List Event),
      res = (if s1.isPaused then (StepOut.next s1, evs1 ++ [Event.sleepPaused])
        else
          let framesRead := min o.read (total - s1.pos)
          if framesRead ≤ 0 then (StepOut.brk s1, evs1 ++ [Event.decodeChunk])
          else
            let s2 := { s1 with pos := s1.pos + framesRead }
            if !o.writeOk then
              (StepOut.brk { s2 with playbackError := true },
               evs1 ++ [Event.decodeChunk, Event.writeChunk])
            else
              let s3 := { s2 with
                framesPlayed := s2.framesPlayed + framesRead
                currentFramePos := sfSeekCur total s2.pos 0 }
              let pu := progressUpdate total s3.framesPlayed s3.lastPercent
              (StepOut.next { s3 with lastPercent := pu.1 },
               evs1 ++ [Event.decodeChunk, Event.writeChunk] ++ pu.2)) →
      sndProgressInv total (stepState res.1) ∧
        ∀ (p : Int) (w : Nat), Event.redrawBar p w ∈ res.2 →
          (s.lastPercent = -1 ∨ s.lastPercent ≤ p) ∧ 0 ≤ p ∧ p ≤ 100 ∧
            w = 25 := by
    intro s1 evs1 he1 he3 hnr res hres
    by_cases hp : s1.isPaused
    · rw [if_pos hp] at hres
      subst hres
      simp only [sndProgressInv]
      dsimp only [stepState]
      refine ⟨⟨by omega, by rw [he3, he1]; exact hlp⟩, ?_⟩
      intro p w hmem
      rcases List.mem_append.mp hmem with hm | hm
      · exact absurd hm (hnr p w)
      · simp at hm
    · rw [if_neg hp] at hres
      by_cases hread : min o.read (total - s1.pos) ≤ 0
      · rw [if_pos hread] at hres
        subst hres
        simp only [sndProgressInv]
        dsimp only [stepState]
        refine ⟨⟨by omega, by rw [he3, he1]; exact hlp⟩, ?_⟩
        intro p w hmem
        rcases List.mem_append.mp hmem with hm | hm
        · exact absurd hm (hnr p w)
        · simp at hm
      · rw [if_neg hread] at hres
        by_cases hw : o.writeOk
        · rw [hw] at hres
          simp only [Bool.not_true, Bool.false_eq_true, if_false] at hres
          subst hres
          simp only [sndProgressInv]
          dsimp only [stepState]
          have hmono : percentOf total s.framesPlayed ≤
              percentOf total (s1.framesPlayed + min o.read (total - s1.pos)) :=
            percentOf_mono total _ _ ht (by omega)
          have hpu := progressUpdate_known total
            (s1.framesPlayed + min o.read (total - s1.pos)) s1.lastPercent ht
          refine ⟨⟨by omega, ?_⟩, ?_⟩
          · right
            rw [hpu.2]
            split_ifs with hcase
            · exact le_of_eq hcase.symm
            · exact le_refl _
          · intro p w hmem
            simp only [List.append_assoc, List.mem_append] at hmem
            rcases hmem with hm | hm
            · exact absurd hm (hnr p w)
            · rcases hm with hm2 | hm2
              · simp at hm2
              · obtain ⟨-, hpeq, hweq, -, -⟩ :=
                  progressUpdate_redraw_mem total _ _ p w hm2
                subst hpeq
                obtain ⟨hb1, hb2⟩ := percentOf_bounds total
                  (s1.framesPlayed + min o.read (total - s1.pos))
                refine ⟨?_, hb1, hb2, hweq⟩
                rcases hlp with h | h
                · exact Or.inl h
                · exact Or.inr (h.trans hmono)
        · have hw' : o.writeOk = false := by
            cases hval : o.writeOk
            · rfl
            · exact absurd hval hw
          rw [hw'] at hres
          simp only [Bool.not_false, if_true] at hres
          subst hres
          simp only [sndProgressInv]
          dsimp only [stepState]
          refine ⟨⟨by omega, by rw [he3, he1]; exact hlp⟩, ?_⟩
          intro p w hmem
          rcases List.mem_append.mp hmem with hm | hm
          · exact absurd hm (hnr p w)
          · simp at hm
  rcases hkey : o.key with _ | c
  · refine main s [] rfl rfl (by simp) (sndLoopBody rate total o s) ?_
    simp [sndLoopBody, hkey]
  · have hnj : c ≠ 'j' := by rintro rfl; exact hj hkey
    have hnk : c ≠ 'k' := by rintro rfl; exact hk hkey
    obtain ⟨hfp, hlpd⟩ := hdfacts c hnj hnk
    refine main (sndKeyDispatch rate total c s).1 (sndKeyDispatch rate total c s).2
      hfp hlpd ?_ (sndLoopBody rate total o s) ?_
    · intro p w hmem
      rcases sndKeyDispatch_events rate total c s with hev | ⟨t, hev⟩ <;>
        rw [hev] at hmem <;> simp at hmem
    · simp [sndLoopBody, hkey]

/-- C6: with a known total the displayed percent is always clamped to
`[0, 100]`; the fixed-width 25-cell bar is redrawn exactly when the integer
percent differs from the last drawn value (which is then updated); with an
unknown total the indeterminate indicator is emitted and no percent is
tracked; and in both backend variants, loop iterations without a seek command
preserve the progress invariant (display position non-negative and, for
mpg123, never ahead of the decoder) and never redraw a percent below the
previously drawn one — so the percent is non-decreasing between redraws
unless a seek intervenes. -/
theorem c6_progress_reporting :
    (∀ total pos : Int, 0 ≤ percentOf total pos ∧ percentOf total pos ≤ 100) ∧
    (∀ total pos last : Int, total > 0 →
        (progressUpdate total pos last).2 =
          (if percentOf total pos = last then []
           else [Event.redrawBar (percentOf total pos) 25])) ∧
    (∀ total pos last : Int, total ≤ 0 →
        progressUpdate total pos last = (last, [Event.unknownDurationTick])) ∧
    (∀ (total pos last p : Int) (w : Nat),
        Event.redrawBar p w ∈ (progressUpdate total pos last).2 →
        total > 0 ∧ p = percentOf total pos ∧ w = 25 ∧ p ≠ last) ∧
    (∀ (rate total : Int) (o : Mp3Iter) (s : Mp3State), 0 < total →
        o.key ≠ some 'j' → o.key ≠ some 'k' → mp3ProgressInv total s →
        mp3ProgressInv total (stepState (mp3LoopBody rate total o s).1) ∧
          ∀ (p : Int) (w : Nat),
            Event.redrawBar p w ∈ (mp3LoopBody rate total o s).2 →
            (s.lastPercent = -1 ∨ s.lastPercent ≤ p) ∧ 0 ≤ p ∧ p ≤ 100 ∧
              w = 25) ∧
    (∀ (rate total : Int) (o : SndIter) (s : SndState), 0 < total →
        o.key ≠ some 'j' → o.key ≠ some 'k' → sndProgressInv total s →
        sndProgressInv total (stepState (sndLoopBody rate total o s).1) ∧
          ∀ (p : Int) (w : Nat),
            Event.redrawBar p w ∈ (sndLoopBody rate total o s).2 →
            (s.lastPercent = -1 ∨ s.lastPercent ≤ p) ∧ 0 ≤ p ∧ p ≤ 100 ∧
              w = 25) ∧
    (∀ total : Int, mp3ProgressInv total mp3Init ∧ sndProgressInv total sndInit) := by
  refine ⟨percentOf_bounds, ?_, progressUpdate_unknown, ?_,
    mp3LoopBody_progress, sndLoopBody_progress, ?_⟩
  · intro total pos last ht
    exact (progressUpdate_known total pos last ht).1
  · intro total pos last p w hm
    obtain ⟨h1, h2, h3, h4, -⟩ := progressUpdate_redraw_mem total pos last p w hm
    exact ⟨h1, h2, h3, h4⟩
  · intro total
    exact ⟨⟨le_refl 0, le_refl 0, Or.inl rfl⟩, ⟨le_refl 0, Or.inl rfl⟩⟩

/-- C6 (witness): concrete instances: percent of 50/200 frames is 25 and in
range; a known-total update at an unchanged percent does not redraw; an
unknown-total update emits the indeterminate indicator; a no-key mpg123
iteration from the initial state preserves the invariant. -/
theorem c6_progress_reporting_witness :
    (progressUpdate 200 50 25).2 = [] ∧
      progressUpdate (-1) 50 25 = (25, [Event.unknownDurationTick]) ∧
      mp3ProgressInv 200 (stepState (mp3LoopBody 44100 200 mp3IterDone
        mp3Init).1) :=
  ⟨by
      rw [(c6_progress_reporting.2.1 200 50 25 (by decide))]
      decide,
   c6_progress_reporting.2.2.1 (-1) 50 25 (by decide),
   (c6_progress_reporting.2.2.2.2.1 44100 200 mp3IterDone mp3Init (by decide)
      (by simp [mp3IterDone]) (by simp [mp3IterDone])
      ((c6_progress_reporting.2.2.2.2.2.2 200).1)).1⟩

/-! ## C7: reverse traversal, C8: repeat traversal -/

/-- When every session returns 0, the per-track protocol plays every remaining
entry in order, never prompts and never halts early. -/
theorem driveTracks_all_ok (results : Nat → Int) (cont : Nat → Bool)
    (l : List Entry) (k : Nat) (hok : ∀ i, results i = 0) :
    driveTracks results cont l k = (l, 0, false) := by
  induction l generalizing k with
  | nil => rfl
  | cons e rest ih =>
    simp [driveTracks, hok k, ih (k + 1)]

/-- C7: for a non-empty playlist (and sessions that all succeed), reverse
traversal pushes the entries head-to-tail (push order = list order), the
resulting stack is the reversed list, the pop/play order is exactly the
reversed list, and the driver leaves the playlist unchanged. -/
theorem c7_reverse_traversal (l : List Entry) (results : Nat → Int)
    (cont : Nat → Bool) (hne : l ≠ []) (hok : ∀ i, results i = 0) :
    (playWithControlsReverseDriver l results cont).2 = l ∧
      (stackPushPhase l []).1 = l.reverse ∧
      (playWithControlsReverseDriver l results cont).1.plays = l.reverse ∧
      (playWithControlsReverseDriver l results cont).1.prompts = 0 ∧
      (playWithControlsReverseDriver l results cont).1.finalList = l := by
  have hE : l.isEmpty = false := by
    cases l with
    | nil => exact absurd rfl hne
    | cons a t => rfl
  unfold playWithControlsReverseDriver
  rw [hE]
  simp only [Bool.false_eq_true, if_false, stackPushPhase_eq,
    driveTracks_all_ok results cont _ 0 hok]
  simp

/-- C7 (witness): playlist `[A, B, C]` with all sessions succeeding: push
order `A, B, C`, stack `[C, B, A]`, play order `C, B, A`, playlist intact. -/
theorem c7_reverse_traversal_witness :
    (playWithControlsReverseDriver
        [⟨"a.mp3", "A"⟩, ⟨"b.mp3", "B"⟩, ⟨"c.mp3", "C"⟩]
        (fun _ => 0) (fun _ => true)).1.plays =
      [⟨"c.mp3", "C"⟩, ⟨"b.mp3", "B"⟩, ⟨"a.mp3", "A"⟩] :=
  (c7_reverse_traversal
      [⟨"a.mp3", "A"⟩, ⟨"b.mp3", "B"⟩, ⟨"c.mp3", "C"⟩]
      (fun _ => 0) (fun _ => true) (by simp) (fun _ => rfl)).2.2.1

/-- When every session returns 0, the repeat loop attempts all `m` remaining
tracks, walking the circular list from index `j`. -/
theorem repeatTracks_all_ok (l : List Entry) (results : Nat → Int)
    (cont : Nat → Bool) (hok : ∀ i, results i = 0) (m : Nat) :
    ∀ i j, j < l.length → repeatTracks l results cont m i j =
      ((List.range m).map (fun t => l.getD ((j + t) % l.length) dfltEntry),
        0, false) := by
  induction m with
  | zero => intro i j _; rfl
  | succ m ih =>
    intro i j hj
    have hn : 0 < l.length := by omega
    rw [List.range_succ_eq_map]
    simp only [repeatTracks, hok i]
    rw [if_neg (by omega : ¬ (0 : Int) = 2), if_neg (by simp)]
    rw [ih (i + 1) ((j + 1) % l.length) (Nat.mod_lt _ hn)]
    simp only [List.map_cons, List.map_map, Prod.mk.injEq, and_true]
    congr 1
    · rw [Nat.add_zero, Nat.mod_eq_of_lt hj]
    · apply List.map_congr_left
      intro t _
      simp only [Function.comp_apply]
      rw [Nat.mod_add_mod]
      congr 2
      omega

/-- C8: for a non-empty playlist of length `L` and `rounds ≥ 1` (with all
sessions succeeding), repeat traversal plays exactly `L * rounds` tracks,
the `i`-th (0-based) being list entry `i % L` (so round boundaries are
contiguous), without prompting and leaving the playlist unchanged. -/
theorem c8_repeat_traversal (l : List Entry) (rounds : Int)
    (results : Nat → Int) (cont : Nat → Bool)
    (hne : l ≠ []) (hr : 1 ≤ rounds) (hok : ∀ i, results i = 0) :
    (playWithControlsRepeatDriver l rounds results cont).plays =
        (List.range (l.length * rounds.toNat)).map
          (fun i => l.getD (i % l.length) dfltEntry) ∧
      (playWithControlsRepeatDriver l rounds results cont).plays.length =
        l.length * rounds.toNat ∧
      (playWithControlsRepeatDriver l rounds results cont).prompts = 0 ∧
      (playWithControlsRepeatDriver l rounds results cont).finalList = l := by
  have hE : l.isEmpty = false := by
    cases l with
    | nil => exact absurd rfl hne
    | cons a t => rfl
  unfold playWithControlsRepeatDriver
  rw [hE]
  simp only [Bool.false_eq_true, if_false]
  rw [if_neg (by omega)]
  rw [repeatTracks_all_ok l results cont hok (l.length * rounds.toNat) 0 0
    (by cases l with
        | nil => exact absurd rfl hne
        | cons a t => simp)]
  simp

/-- C8 (witness): `rounds = 3` over a playlist of length 2 plays 6 tracks
`[1, 2, 1, 2, 1, 2]`. -/
theorem c8_repeat_traversal_witness :
    (playWithControlsRepeatDriver [⟨"one", "X"⟩, ⟨"two", "Y"⟩] 3
        (fun _ => 0) (fun _ => true)).plays =
      [⟨"one", "X"⟩, ⟨"two", "Y"⟩, ⟨"one", "X"⟩, ⟨"two", "Y"⟩,
        ⟨"one", "X"⟩, ⟨"two", "Y"⟩] := by
  rw [(c8_repeat_traversal [⟨"one", "X"⟩, ⟨"two", "Y"⟩] 3
      (fun _ => 0) (fun _ => true) (by simp) (by omega) (fun _ => rfl)).1]
  rfl


/-! ## C10: circular linked-list invariant -/

/-- A chain's head is its start address. -/
theorem chain_cons_iff (m : Nat → Option LNode) (a x c : Nat) (l : List Nat) :
    chain m a (x :: l) c ↔
      x = a ∧ ∃ (nd : LNode) (b : Nat), m a = some nd ∧ nd.next = some b ∧
        chain m b l c := by
  constructor
  · intro h
    cases h with
    | cons hm hn hc => exact ⟨rfl, _, _, hm, hn, hc⟩
  · rintro ⟨rfl, nd, b, hm, hn, hc⟩
    exact chain.cons hm hn hc

/-- An empty chain connects an address to itself. -/
theorem chain_nil_iff (m : Nat → Option LNode) (a c : Nat) :
    chain m a [] c ↔ a = c := by
  constructor
  · intro h
    cases h
    rfl
  · rintro rfl
    exact chain.nil a

/-- Chains concatenate and split at any point. -/
theorem chain_append_iff (m : Nat → Option LNode) (l1 l2 : List Nat) :
    ∀ a c : Nat, chain m a (l1 ++ l2) c ↔
      ∃ b, chain m a l1 b ∧ chain m b l2 c := by
  induction l1 with
  | nil =>
    intro a c
    simp only [List.nil_append]
    constructor
    · intro h
      exact ⟨a, chain.nil a, h⟩
    · rintro ⟨b, hb, h⟩
      cases hb
      exact h
  | cons x l1 ih =>
    intro a c
    simp only [List.cons_append]
    rw [chain_cons_iff]
    constructor
    · rintro ⟨rfl, nd, b, hm, hn, hc⟩
      obtain ⟨mid, h1, h2⟩ := (ih b c).mp hc
      exact ⟨mid, chain.cons hm hn h1, h2⟩
    · rintro ⟨mid, h1, h2⟩
      cases h1 with
      | cons hm hn hc =>
        exact ⟨rfl, _, _, hm, hn, (ih _ c).mpr ⟨mid, hc, h2⟩⟩

/-- A chain only looks at the cells it lists: a heap agreeing on those cells
carries the same chain. -/
theorem chain_frame (m m' : Nat → Option LNode) (l : List Nat) :
    ∀ (a c : Nat), (∀ x ∈ l, m' x = m x) → chain m a l c → chain m' a l c := by
  induction l with
  | nil =>
    intro a c _ h
    cases h
    exact chain.nil a
  | cons x l ih =>
    intro a c hag h
    cases h with
    | cons hm hn hc =>
      exact chain.cons ((hag _ (by simp)).trans hm) hn
        (ih _ c (fun y hy => hag y (by simp [hy])) hc)

/-- Every cell in a chain is allocated. -/
theorem chain_mem_alloc (m : Nat → Option LNode) (l : List Nat) :
    ∀ (a c : Nat), chain m a l c → ∀ x ∈ l, ∃ nd, m x = some nd := by
  induction l with
  | nil => intro a c _ x hx; simp at hx
  | cons y l ih =>
    intro a c h x hx
    cases h with
    | cons hm hn hc =>
      rcases List.mem_cons.mp hx with rfl | hx'
      · exact ⟨_, hm⟩
      · exact ih _ c hc x hx'

/-- Following `next` pointers along a chain reaches its target in exactly
`length` steps. -/
theorem chain_followNext (fr : Nat) (l : List Nat) :
    ∀ (m : Nat → Option LNode) (a c : Nat), chain m a l c →
      followNext ⟨m, fr⟩ a l.length = some c := by
  induction l with
  | nil =>
    intro m a c h
    cases h
    rfl
  | cons x l ih =>
    intro m a c h
    cases h with
    | cons hm hn hc =>
      simp only [List.length_cons, followNext, hm, hn]
      exact ih m _ c hc

/-- A non-empty chain starts with its start address. -/
theorem chain_ne_head (m : Nat → Option LNode) (a c : Nat) (l : List Nat)
    (h : chain m a l c) (hne : l ≠ []) : ∃ l', l = a :: l' := by
  cases h with
  | nil => exact absurd rfl hne
  | cons hm hn hc => exact ⟨_, rfl⟩

/-- `findLast` walks a chain whose target does not occur before its end and
returns the chain's last cell. -/
theorem findLast_eq (fr : Nat) (l : List Nat) :
    ∀ (m : Nat → Option LNode) (h0 cur : Nat) (fuel : Nat),
      chain m cur l h0 → l ≠ [] → h0 ∉ l.drop 1 → l.length ≤ fuel →
      ∃ front last, l = front ++ [last] ∧
        findLast ⟨m, fr⟩ h0 cur fuel = some last := by
  induction l with
  | nil => intro m h0 cur fuel _ hne _ _; exact absurd rfl hne
  | cons x l ih =>
    intro m h0 cur fuel h hne htl hfuel
    obtain ⟨hx, nd, b, hm, hn, hc⟩ := (chain_cons_iff m cur x h0 l).mp h
    subst hx
    obtain ⟨fuel', rfl⟩ : ∃ f, fuel = f + 1 :=
      ⟨fuel - 1, by simp at hfuel; omega⟩
    have hunf : findLast ⟨m, fr⟩ h0 x (fuel' + 1) =
        (match m x with
         | none => none
         | some nd =>
           if nd.next = some h0 then some x
           else
             match nd.next with
             | some nxt => findLast ⟨m, fr⟩ h0 nxt fuel'
             | none => none) := rfl
    cases l with
    | nil =>
      have hb : b = h0 := (chain_nil_iff m b h0).mp hc
      subst hb
      refine ⟨[], x, by simp, ?_⟩
      rw [hunf, hm]
      simp [hn]
    | cons y l' =>
      obtain ⟨l'', hl''⟩ := chain_ne_head m b h0 (y :: l') hc (by simp)
      injection hl'' with hy hl2
      subst hy
      have hyh : ¬ nd.next = some h0 := by
        rw [hn]
        intro hcon
        injection hcon with hcon
        exact htl (by simp [← hcon])
      obtain ⟨front', last, hdec, hrun⟩ := ih m h0 y fuel' hc (by simp)
        (by
          intro hmem
          exact htl (by simp at hmem ⊢; exact Or.inr hmem))
        (by simp at hfuel ⊢; omega)
      refine ⟨x :: front', last, by rw [List.cons_append, ← hdec], ?_⟩
      rw [hunf, hm]
      dsimp only
      rw [if_neg hyh, hn]
      exact hrun


/-- `lastWithFollow` walks a chain and returns its last cell together with
the cell before it (or the initial `follow` when the chain has one cell). -/
theorem lastWithFollow_eq (fr : Nat) (l : List Nat) :
    ∀ (m : Nat → Option LNode) (h0 cur : Nat) (f : Option Nat) (fuel : Nat),
      chain m cur l h0 → l ≠ [] → h0 ∉ l.drop 1 → l.length ≤ fuel →
      ∃ front last, l = front ++ [last] ∧
        ((front = [] ∧
            lastWithFollow ⟨m, fr⟩ h0 cur f fuel = some (f, last)) ∨
          (∃ front2 fl, front = front2 ++ [fl] ∧
            lastWithFollow ⟨m, fr⟩ h0 cur f fuel = some (some fl, last))) := by
  induction l with
  | nil => intro m h0 cur f fuel _ hne _ _; exact absurd rfl hne
  | cons x l ih =>
    intro m h0 cur f fuel h hne htl hfuel
    obtain ⟨hx, nd, b, hm, hn, hc⟩ := (chain_cons_iff m cur x h0 l).mp h
    subst hx
    obtain ⟨fuel', rfl⟩ : ∃ g, fuel = g + 1 :=
      ⟨fuel - 1, by simp at hfuel; omega⟩
    have hunf : lastWithFollow ⟨m, fr⟩ h0 x f (fuel' + 1) =
        (match m x with
         | none => none
         | some nd =>
           if nd.next = some h0 then some (f, x)
           else
             match nd.next with
             | some nxt => lastWithFollow ⟨m, fr⟩ h0 nxt (some x) fuel'
             | none => none) := rfl
    cases l with
    | nil =>
      have hb : b = h0 := (chain_nil_iff m b h0).mp hc
      subst hb
      refine ⟨[], x, by simp, Or.inl ⟨rfl, ?_⟩⟩
      rw [hunf, hm]
      simp [hn]
    | cons y l' =>
      obtain ⟨l'', hl''⟩ := chain_ne_head m b h0 (y :: l') hc (by simp)
      injection hl'' with hy hl2
      subst hy
      have hyh : ¬ nd.next = some h0 := by
        rw [hn]
        intro hcon
        injection hcon with hcon
        exact htl (by simp [← hcon])
      obtain ⟨front', last, hdec, hcase⟩ := ih m h0 y (some x) fuel' hc
        (by simp)
        (by
          intro hmem
          exact htl (by simp at hmem ⊢; exact Or.inr hmem))
        (by simp at hfuel ⊢; omega)
      refine ⟨x :: front', last, by rw [List.cons_append, ← hdec], Or.inr ?_⟩
      rcases hcase with ⟨hfe, hrun⟩ | ⟨front2, fl, hfe, hrun⟩
      · refine ⟨[], x, by rw [hfe]; rfl, ?_⟩
        rw [hunf, hm]
        dsimp only
        rw [if_neg hyh, hn]
        exact hrun
      · refine ⟨x :: front2, fl, by rw [hfe]; rfl, ?_⟩
        rw [hunf, hm]
        dsimp only
        rw [if_neg hyh, hn]
        exact hrun

/-- `advanceBreak` for `k` steps inside a cycle segment lands on the cell at
index `k` (the safety break never fires before the chain's end). -/
theorem advanceBreak_eq (fr : Nat) (k : Nat) :
    ∀ (l : List Nat) (m : Nat → Option LNode) (h0 cur : Nat),
      chain m cur l h0 → h0 ∉ l.drop 1 → k < l.length →
      ∃ A tmp B, l = A ++ tmp :: B ∧ A.length = k ∧
        advanceBreak ⟨m, fr⟩ h0 cur k = some tmp := by
  induction k with
  | zero =>
    intro l m h0 cur h htl hk
    obtain ⟨rest, rfl⟩ := chain_ne_head m cur h0 l h (by
      intro hl
      rw [hl] at hk
      simp at hk)
    exact ⟨[], cur, rest, rfl, rfl, rfl⟩
  | succ k ih =>
    intro l m h0 cur h htl hk
    obtain ⟨rest, rfl⟩ := chain_ne_head m cur h0 l h (by
      intro hl
      rw [hl] at hk
      simp at hk)
    obtain ⟨hx, nd, b, hm, hn, hc⟩ :=
      (chain_cons_iff m cur cur h0 rest).mp h
    have hrestne : rest ≠ [] := by
      intro hl
      rw [hl] at hk
      simp at hk
    obtain ⟨rest', rfl⟩ := chain_ne_head m b h0 rest hc hrestne
    have hyh : ¬ nd.next = some h0 := by
      rw [hn]
      intro hcon
      injection hcon with hcon
      exact htl (by simp [← hcon])
    have hunf : advanceBreak ⟨m, fr⟩ h0 cur (k + 1) =
        (match m cur with
         | none => none
         | some nd =>
           if nd.next = some h0 then some cur
           else
             match nd.next with
             | some nxt => advanceBreak ⟨m, fr⟩ h0 nxt k
             | none => none) := rfl
    obtain ⟨A', tmp, B, hdec, hlen, hrun⟩ := ih (b :: rest') m h0 b hc
      (by
        intro hmem
        refine htl ?_
        rcases List.mem_of_mem_drop hmem with hmem2
        simp [hmem2])
      (by simp at hk ⊢; omega)
    refine ⟨cur :: A', tmp, B, by rw [hdec]; rfl, by simp [hlen], ?_⟩
    rw [hunf, hm]
    dsimp only
    rw [if_neg hyh, hn]
    exact hrun

/-- `advanceFollow` for `k + 1` steps inside a cycle segment lands on the
cell at index `k + 1` with `follow` on the cell at index `k`. -/
theorem advanceFollow_eq (fr : Nat) (k : Nat) :
    ∀ (l : List Nat) (m : Nat → Option LNode) (h0 cur : Nat) (f : Option Nat),
      chain m cur l h0 → h0 ∉ l.drop 1 → k + 1 < l.length →
      ∃ A fl tmp B, l = A ++ fl :: tmp :: B ∧ A.length = k ∧
        advanceFollow ⟨m, fr⟩ h0 cur f (k + 1) = some (some fl, tmp) := by
  induction k with
  | zero =>
    intro l m h0 cur f h htl hk
    obtain ⟨rest, rfl⟩ := chain_ne_head m cur h0 l h (by
      intro hl
      rw [hl] at hk
      simp at hk)
    obtain ⟨hx, nd, b, hm, hn, hc⟩ :=
      (chain_cons_iff m cur cur h0 rest).mp h
    have hrestne : rest ≠ [] := by
      intro hl
      rw [hl] at hk
      simp at hk
    obtain ⟨rest', rfl⟩ := chain_ne_head m b h0 rest hc hrestne
    have hyh : ¬ nd.next = some h0 := by
      rw [hn]
      intro hcon
      injection hcon with hcon
      exact htl (by simp [← hcon])
    refine ⟨[], cur, b, rest', rfl, rfl, ?_⟩
    have hunf : advanceFollow ⟨m, fr⟩ h0 cur f 1 =
        (match m cur with
         | none => none
         | some nd =>
           if nd.next = some h0 then some (f, cur)
           else
             match nd.next with
             | some nxt => advanceFollow ⟨m, fr⟩ h0 nxt (some cur) 0
             | none => none) := rfl
    rw [hunf, hm]
    dsimp only
    rw [if_neg hyh, hn]
    rfl
  | succ k ih =>
    intro l m h0 cur f h htl hk
    obtain ⟨rest, rfl⟩ := chain_ne_head m cur h0 l h (by
      intro hl
      rw [hl] at hk
      simp at hk)
    obtain ⟨hx, nd, b, hm, hn, hc⟩ :=
      (chain_cons_iff m cur cur h0 rest).mp h
    have hrestne : rest ≠ [] := by
      intro hl
      rw [hl] at hk
      simp at hk
    obtain ⟨rest', rfl⟩ := chain_ne_head m b h0 rest hc hrestne
    have hyh : ¬ nd.next = some h0 := by
      rw [hn]
      intro hcon
      injection hcon with hcon
      exact htl (by simp [← hcon])
    obtain ⟨A', fl, tmp, B, hdec, hlen, hrun⟩ := ih (b :: rest') m h0 b
      (some cur) hc
      (by
        intro hmem
        refine htl ?_
        rcases List.mem_of_mem_drop hmem with hmem2
        simp [hmem2])
      (by simp at hk ⊢; omega)
    refine ⟨cur :: A', fl, tmp, B, by rw [hdec]; rfl, by simp [hlen], ?_⟩
    have hunf : advanceFollow ⟨m, fr⟩ h0 cur f (k + 1 + 1) =
        (match m cur with
         | none => none
         | some nd =>
           if nd.next = some h0 then some (f, cur)
           else
             match nd.next with
             | some nxt => advanceFollow ⟨m, fr⟩ h0 nxt (some cur) (k + 1)
             | none => none) := rfl
    rw [hunf, hm]
    dsimp only
    rw [if_neg hyh, hn]
    exact hrun


/-- `writeNext` on an allocated cell updates exactly that cell's `next`. -/
theorem writeNext_eq (h : LHeap) (a : Nat) (v : Option Nat) (nd : LNode)
    (hm : h.mem a = some nd) :
    h.writeNext a v =
      some ⟨fun b => if b = a then some { nd with next := v } else h.mem b,
        h.fresh⟩ := by
  unfold LHeap.writeNext
  rw [hm]

/-- `free` on an allocated cell unallocates exactly that cell. -/
theorem free_eq (h : LHeap) (a : Nat) (nd : LNode) (hm : h.mem a = some nd) :
    h.free a = some ⟨fun b => if b = a then none else h.mem b, h.fresh⟩ := by
  unfold LHeap.free
  rw [hm]

/-- A one-cell chain is a cell whose `next` is the target. -/
theorem chain_singleton (m : Nat → Option LNode) (x c : Nat) (nd : LNode)
    (hm : m x = some nd) (hn : nd.next = some c) : chain m x [x] c :=
  chain.cons hm hn (chain.nil c)

/-- Splitting a cycle at its last cell. -/
theorem chain_split_last (m : Nat → Option LNode) (addrs front : List Nat)
    (h0 last : Nat) (hdec : addrs = front ++ [last])
    (hch : chain m h0 addrs h0) :
    chain m h0 front last ∧ ∃ nd, m last = some nd ∧ nd.next = some h0 := by
  rw [hdec] at hch
  obtain ⟨mid, h1, h2⟩ := (chain_append_iff m front [last] h0 h0).mp hch
  obtain ⟨hx, nd, b, hm, hn, hc⟩ := (chain_cons_iff m mid last h0 []).mp h2
  subst hx
  have hb : b = h0 := (chain_nil_iff m b h0).mp hc
  subst hb
  exact ⟨h1, nd, hm, hn⟩

/-- Unfolding an `Option` bind against a `some` result. -/
theorem obind_eq_some {α β : Type} (x : Option α) (f : α → Option β) (b : β) :
    x >>= f = some b ↔ ∃ a, x = some a ∧ f a = some b := by
  cases x with
  | none =>
    constructor
    · intro h
      exact Option.noConfusion h
    · rintro ⟨a, ha, _⟩
      exact Option.noConfusion ha
  | some a =>
    constructor
    · intro h
      exact ⟨a, rfl, h⟩
    · rintro ⟨a2, ha, hf⟩
      obtain rfl := Option.some.inj ha
      exact hf

/-- Binding a `some` just applies the continuation. -/
theorem obind_some {α β : Type} (a : α) (f : α → Option β) :
    (some a >>= f) = f a := rfl

/-- `alloc` in `memUpd` form. -/
theorem alloc_eq (h : LHeap) (song artist : String) :
    h.alloc song artist =
      (⟨memUpd h.mem h.fresh (some ⟨song, artist, none⟩), h.fresh + 1⟩,
        h.fresh) := rfl

/-- `writeNext` on an allocated cell, in `memUpd` form. -/
theorem writeNext_upd (h : LHeap) (a : Nat) (v : Option Nat) (nd : LNode)
    (hm : h.mem a = some nd) :
    h.writeNext a v =
      some ⟨memUpd h.mem a (some { nd with next := v }), h.fresh⟩ := by
  unfold LHeap.writeNext memUpd
  rw [hm]

/-- `free` on an allocated cell, in `memUpd` form. -/
theorem free_upd (h : LHeap) (a : Nat) (nd : LNode) (hm : h.mem a = some nd) :
    h.free a = some ⟨memUpd h.mem a none, h.fresh⟩ := by
  unfold LHeap.free memUpd
  rw [hm]

/-- `readNext` on an allocated cell returns its `next` field. -/
theorem readNext_eq (h : LHeap) (a : Nat) (nd : LNode)
    (hm : h.mem a = some nd) : h.readNext a = some nd.next := by
  unfold LHeap.readNext
  rw [hm]
  rfl

/-- `memUpd` at the updated address. -/
theorem memUpd_same (m : Nat → Option LNode) (a : Nat) (v : Option LNode) :
    memUpd m a v a = v := by
  simp [memUpd]

/-- `memUpd` away from the updated address. -/
theorem memUpd_ne (m : Nat → Option LNode) (a : Nat) (v : Option LNode)
    (b : Nat) (hb : b ≠ a) : memUpd m a v b = m b := by
  simp [memUpd, hb]

/-- The last element of a duplicate-free list does not occur earlier. -/
theorem nodup_snoc_not_mem (l : List Nat) (x : Nat)
    (h : (l ++ [x]).Nodup) : x ∉ l := by
  intro hx
  rcases List.nodup_append.mp h with ⟨_, _, hdisj⟩
  exact hdisj hx (by simp)

/-- Packaging the representation invariant for a non-empty list. -/
theorem goodList_some (s : LState) (hd : Nat) (addrs : List Nat)
    (hhd : s.head = some hd) (hch : chain s.heap.mem hd addrs hd)
    (hne : addrs ≠ []) (hnd : addrs.Nodup)
    (hlen : s.len = (addrs.length : Int))
    (hbnd : ∀ a ∈ addrs, a < s.heap.fresh) : goodList s := by
  refine ⟨addrs, ?_⟩
  unfold listRep
  rw [hhd]
  exact ⟨hch, hne, hnd, hlen, hbnd⟩

/-- Packaging the representation invariant for an empty list. -/
theorem goodList_none (s : LState) (hhd : s.head = none) (hlen : s.len = 0) :
    goodList s := by
  refine ⟨[], ?_⟩
  unfold listRep
  rw [hhd]
  exact ⟨rfl, hlen⟩

/-- Destructing the representation invariant of a non-empty list: the cycle
starts at the head. -/
theorem goodList_elim (s : LState) (hd : Nat) (hg : goodList s)
    (hhd : s.head = some hd) :
    ∃ tail, (hd :: tail).Nodup ∧ chain s.heap.mem hd (hd :: tail) hd ∧
      s.len = (((hd :: tail).length : Nat) : Int) ∧
      ∀ a ∈ hd :: tail, a < s.heap.fresh := by
  obtain ⟨addrs, hrep⟩ := hg
  unfold listRep at hrep
  rw [hhd] at hrep
  obtain ⟨hch, hne, hnd, hlen, hbnd⟩ := hrep
  obtain ⟨tail, rfl⟩ := chain_ne_head _ _ _ _ hch hne
  exact ⟨tail, hnd, hch, hlen, hbnd⟩

/-- On an empty list the representation invariant forces `len = 0`. -/
theorem goodList_elim_none (s : LState) (hg : goodList s)
    (hhd : s.head = none) : s.len = 0 := by
  obtain ⟨addrs, hrep⟩ := hg
  unfold listRep at hrep
  rw [hhd] at hrep
  exact hrep.2

/-- `add_beg` preserves the representation invariant. -/
theorem add_beg_good (s : LState) (song artist : String) (r : LState)
    (hg : goodList s) (h : add_beg s song artist = some r) : goodList r := by
  cases hhd : s.head with
  | none =>
    have hlen0 : s.len = 0 := goodList_elim_none s hg hhd
    simp only [add_beg, alloc_eq, hhd] at h
    simp only [obind_eq_some, Option.some.injEq] at h
    obtain ⟨h2, hw, hres⟩ := h
    have hw2 : LHeap.writeNext
        ⟨memUpd s.heap.mem s.heap.fresh (some ⟨song, artist, none⟩),
          s.heap.fresh + 1⟩ s.heap.fresh (some s.heap.fresh) =
        some ⟨memUpd (memUpd s.heap.mem s.heap.fresh
            (some ⟨song, artist, none⟩)) s.heap.fresh
            (some ⟨song, artist, some s.heap.fresh⟩), s.heap.fresh + 1⟩ :=
      writeNext_upd _ _ _ ⟨song, artist, none⟩ (memUpd_same _ _ _)
    have hh2 := Option.some.inj (hw.symm.trans hw2)
    subst hh2
    subst hres
    refine goodList_some _ s.heap.fresh [s.heap.fresh] rfl
      (chain_singleton _ _ _ ⟨song, artist, some s.heap.fresh⟩
        (memUpd_same _ _ _) rfl)
      (by simp) (by simp) (by simp [hlen0]) ?_
    intro a ha
    simp only [List.mem_singleton] at ha
    subst ha
    exact Nat.lt_succ_self _
  | some hd =>
    obtain ⟨tail, hnd, hch, hlen, hbnd⟩ := goodList_elim s hd hg hhd
    have hhdtl : hd ∉ tail := (List.nodup_cons.mp hnd).1
    have hch1 : chain (memUpd s.heap.mem s.heap.fresh
        (some ⟨song, artist, none⟩)) hd (hd :: tail) hd :=
      chain_frame _ _ _ _ _
        (fun x hx => memUpd_ne _ _ _ _ (Nat.ne_of_lt (hbnd x hx))) hch
    obtain ⟨front, last, hdec, hfind⟩ :=
      findLast_eq (s.heap.fresh + 1) (hd :: tail) _ hd hd (s.len.toNat + 1)
        hch1 (by simp) (by simpa using hhdtl)
        (by simp only [List.length_cons] at hlen ⊢; omega)
    obtain ⟨hchf, ndL, hml, hnl⟩ :=
      chain_split_last _ (hd :: tail) front hd last hdec hch1
    have hlast_mem : last ∈ hd :: tail := by rw [hdec]; simp
    have hlastF : last ≠ s.heap.fresh := Nat.ne_of_lt (hbnd last hlast_mem)
    simp only [add_beg, alloc_eq, hhd] at h
    simp only [obind_eq_some, Option.some.injEq] at h
    obtain ⟨last0, hfind0, h2, hw2, h3, hw3, hres⟩ := h
    have hl0 := Option.some.inj (hfind.symm.trans hfind0)
    subst hl0
    have hw2e : LHeap.writeNext
        ⟨memUpd s.heap.mem s.heap.fresh (some ⟨song, artist, none⟩),
          s.heap.fresh + 1⟩ s.heap.fresh (some hd) =
        some ⟨memUpd (memUpd s.heap.mem s.heap.fresh
            (some ⟨song, artist, none⟩)) s.heap.fresh
            (some ⟨song, artist, some hd⟩), s.heap.fresh + 1⟩ :=
      writeNext_upd _ _ _ ⟨song, artist, none⟩ (memUpd_same _ _ _)
    have hh2 := Option.some.inj (hw2.symm.trans hw2e)
    subst hh2
    have hm2l : memUpd (memUpd s.heap.mem s.heap.fresh
        (some ⟨song, artist, none⟩)) s.heap.fresh
        (some ⟨song, artist, some hd⟩) last = some ndL := by
      rw [memUpd_ne _ _ _ _ hlastF]
      exact hml
    have hw3e : LHeap.writeNext
        ⟨memUpd (memUpd s.heap.mem s.heap.fresh
            (some ⟨song, artist, none⟩)) s.heap.fresh
            (some ⟨song, artist, some hd⟩), s.heap.fresh + 1⟩ last
          (some s.heap.fresh) =
        some ⟨memUpd (memUpd (memUpd s.heap.mem s.heap.fresh
            (some ⟨song, artist, none⟩)) s.heap.fresh
            (some ⟨song, artist, some hd⟩)) last
            (some { ndL with next := some s.heap.fresh }),
          s.heap.fresh + 1⟩ :=
      writeNext_upd _ _ _ ndL hm2l
    have hh3 := Option.some.inj (hw3.symm.trans hw3e)
    subst hh3
    subst hres
    have hmF : memUpd (memUpd (memUpd s.heap.mem s.heap.fresh
        (some ⟨song, artist, none⟩)) s.heap.fresh
        (some ⟨song, artist, some hd⟩)) last
        (some { ndL with next := some s.heap.fresh }) s.heap.fresh =
        some ⟨song, artist, some hd⟩ := by
      rw [memUpd_ne _ _ _ _ (Ne.symm hlastF), memUpd_same]
    refine goodList_some _ s.heap.fresh (s.heap.fresh :: hd :: tail) rfl
      ?_ (by simp) ?_ ?_ ?_
    · refine chain.cons hmF rfl ?_
      rw [hdec]
      refine (chain_append_iff _ front [last] hd s.heap.fresh).mpr
        ⟨last, ?_, ?_⟩
      · refine chain_frame _ _ _ _ _ ?_ hchf
        intro x hx
        dsimp only
        have hxa : x ∈ hd :: tail := by
          rw [hdec]
          exact List.mem_append_left _ hx
        have hx1 : x ≠ s.heap.fresh := Nat.ne_of_lt (hbnd x hxa)
        have hx2 : x ≠ last := by
          intro hcon
          subst hcon
          exact (nodup_snoc_not_mem front x (hdec ▸ hnd)) hx
        rw [memUpd_ne _ _ _ _ hx2, memUpd_ne _ _ _ _ hx1]
      · exact chain_singleton _ _ _ _ (memUpd_same _ _ _) rfl
    · refine List.nodup_cons.mpr ⟨?_, hnd⟩
      intro hmem
      exact (Nat.ne_of_lt (hbnd _ hmem)) rfl
    · show s.len + 1 = _
      simp only [List.length_cons] at hlen ⊢
      omega
    · intro a ha
      rcases List.mem_cons.mp ha with rfl | ha2
      · exact Nat.lt_succ_self _
      · exact Nat.lt_succ_of_lt (hbnd a ha2)

/-- `add_end` preserves the representation invariant. -/
theorem add_end_good (s : LState) (song artist : String) (r : LState)
    (hg : goodList s) (h : add_end s song artist = some r) : goodList r := by
  cases hhd : s.head with
  | none =>
    have hlen0 : s.len = 0 := goodList_elim_none s hg hhd
    simp only [add_end, alloc_eq, hhd] at h
    simp only [obind_eq_some, Option.some.injEq] at h
    obtain ⟨h2, hw, hres⟩ := h
    have hw2 : LHeap.writeNext
        ⟨memUpd s.heap.mem s.heap.fresh (some ⟨song, artist, none⟩),
          s.heap.fresh + 1⟩ s.heap.fresh (some s.heap.fresh) =
        some ⟨memUpd (memUpd s.heap.mem s.heap.fresh
            (some ⟨song, artist, none⟩)) s.heap.fresh
            (some ⟨song, artist, some s.heap.fresh⟩), s.heap.fresh + 1⟩ :=
      writeNext_upd _ _ _ ⟨song, artist, none⟩ (memUpd_same _ _ _)
    have hh2 := Option.some.inj (hw.symm.trans hw2)
    subst hh2
    subst hres
    refine goodList_some _ s.heap.fresh [s.heap.fresh] rfl
      (chain_singleton _ _ _ ⟨song, artist, some s.heap.fresh⟩
        (memUpd_same _ _ _) rfl)
      (by simp) (by simp) (by simp [hlen0]) ?_
    intro a ha
    simp only [List.mem_singleton] at ha
    subst ha
    exact Nat.lt_succ_self _
  | some hd =>
    obtain ⟨tail, hnd, hch, hlen, hbnd⟩ := goodList_elim s hd hg hhd
    have hhdtl : hd ∉ tail := (List.nodup_cons.mp hnd).1
    have hch1 : chain (memUpd s.heap.mem s.heap.fresh
        (some ⟨song, artist, none⟩)) hd (hd :: tail) hd :=
      chain_frame _ _ _ _ _
        (fun x hx => memUpd_ne _ _ _ _ (Nat.ne_of_lt (hbnd x hx))) hch
    obtain ⟨front, last, hdec, hfind⟩ :=
      findLast_eq (s.heap.fresh + 1) (hd :: tail) _ hd hd (s.len.toNat + 1)
        hch1 (by simp) (by simpa using hhdtl)
        (by simp only [List.length_cons] at hlen ⊢; omega)
    obtain ⟨hchf, ndL, hml, hnl⟩ :=
      chain_split_last _ (hd :: tail) front hd last hdec hch1
    have hlast_mem : last ∈ hd :: tail := by rw [hdec]; simp
    have hlastF : last ≠ s.heap.fresh := Nat.ne_of_lt (hbnd last hlast_mem)
    simp only [add_end, alloc_eq, hhd] at h
    simp only [obind_eq_some, Option.some.injEq] at h
    obtain ⟨last0, hfind0, h2, hw2, h3, hw3, hres⟩ := h
    have hl0 := Option.some.inj (hfind.symm.trans hfind0)
    subst hl0
    have hw2e : LHeap.writeNext
        ⟨memUpd s.heap.mem s.heap.fresh (some ⟨song, artist, none⟩),
          s.heap.fresh + 1⟩ last (some s.heap.fresh) =
        some ⟨memUpd (memUpd s.heap.mem s.heap.fresh
            (some ⟨song, artist, none⟩)) last
            (some { ndL with next := some s.heap.fresh }),
          s.heap.fresh + 1⟩ :=
      writeNext_upd _ _ _ ndL hml
    have hh2 := Option.some.inj (hw2.symm.trans hw2e)
    subst hh2
    have hm2F : memUpd (memUpd s.heap.mem s.heap.fresh
        (some ⟨song, artist, none⟩)) last
        (some { ndL with next := some s.heap.fresh }) s.heap.fresh =
        some ⟨song, artist, none⟩ := by
      rw [memUpd_ne _ _ _ _ (Ne.symm hlastF), memUpd_same]
    have hw3e : LHeap.writeNext
        ⟨memUpd (memUpd s.heap.mem s.heap.fresh
            (some ⟨song, artist, none⟩)) last
            (some { ndL with next := some s.heap.fresh }),
          s.heap.fresh + 1⟩ s.heap.fresh (some hd) =
        some ⟨memUpd (memUpd (memUpd s.heap.mem s.heap.fresh
            (some ⟨song, artist, none⟩)) last
            (some { ndL with next := some s.heap.fresh })) s.heap.fresh
            (some ⟨song, artist, some hd⟩), s.heap.fresh + 1⟩ :=
      writeNext_upd _ _ _ ⟨song, artist, none⟩ hm2F
    have hh3 := Option.some.inj (hw3.symm.trans hw3e)
    subst hh3
    subst hres
    refine goodList_some _ hd ((hd :: tail) ++ [s.heap.fresh]) rfl
      ?_ (by simp) ?_ ?_ ?_
    · refine (chain_append_iff _ (hd :: tail) [s.heap.fresh] hd hd).mpr
        ⟨s.heap.fresh, ?_, ?_⟩
      · rw [hdec]
        refine (chain_append_iff _ front [last] hd s.heap.fresh).mpr
          ⟨last, ?_, ?_⟩
        · refine chain_frame _ _ _ _ _ ?_ hchf
          intro x hx
          dsimp only
          have hxa : x ∈ hd :: tail := by
            rw [hdec]
            exact List.mem_append_left _ hx
          have hx1 : x ≠ s.heap.fresh := Nat.ne_of_lt (hbnd x hxa)
          have hx2 : x ≠ last := by
            intro hcon
            subst hcon
            exact (nodup_snoc_not_mem front x (hdec ▸ hnd)) hx
          rw [memUpd_ne _ _ _ _ hx1, memUpd_ne _ _ _ _ hx2]
        · refine chain_singleton _ _ _ { ndL with next := some s.heap.fresh }
            ?_ rfl
          show memUpd _ s.heap.fresh _ last = _
          rw [memUpd_ne _ _ _ _ hlastF, memUpd_same]
      · exact chain_singleton _ _ _ ⟨song, artist, some hd⟩
          (memUpd_same _ _ _) rfl
    · refine ((List.nodup_append).mpr ⟨hnd, by simp, ?_⟩)
      intro a ha hb
      simp only [List.mem_singleton] at hb
      subst hb
      exact (Nat.ne_of_lt (hbnd _ ha)) rfl
    · show s.len + 1 = _
      simp only [List.length_append, List.length_cons, List.length_nil]
        at hlen ⊢
      omega
    · intro a ha
      rcases List.mem_append.mp ha with ha2 | ha2
      · exact Nat.lt_succ_of_lt (hbnd a ha2)
      · simp only [List.mem_singleton] at ha2
        subst ha2
        exact Nat.lt_succ_self _

/-- `del_beg` preserves the representation invariant. -/
theorem del_beg_good (s r : LState) (hg : goodList s)
    (h : del_beg s = some r) : goodList r := by
  cases hhd : s.head with
  | none =>
    simp only [del_beg, hhd] at h
    obtain rfl := Option.some.inj h
    exact hg
  | some hd =>
    obtain ⟨tail, hnd, hch, hlen, hbnd⟩ := goodList_elim s hd hg hhd
    have hhdtl : hd ∉ tail := (List.nodup_cons.mp hnd).1
    obtain ⟨heq, ndH, b, hmh, hnb, hcb⟩ :=
      (chain_cons_iff _ hd hd hd tail).mp hch
    simp only [del_beg, hhd] at h
    simp only [obind_eq_some, Option.some.injEq] at h
    obtain ⟨hn, hrd, hif⟩ := h
    have hrd2 : s.heap.readNext hd = some ndH.next := readNext_eq _ _ _ hmh
    have hhn : hn = ndH.next := Option.some.inj (hrd.symm.trans hrd2)
    subst hhn
    rw [hnb] at hif
    by_cases hb : b = hd
    · rw [if_pos (by rw [hb])] at hif
      simp only [obind_eq_some, Option.some.injEq] at hif
      obtain ⟨h1, hf, hres⟩ := hif
      subst hres
      cases tail with
      | cons t0 t2 =>
        exfalso
        obtain ⟨t', ht'⟩ := chain_ne_head _ _ _ _ hcb (by simp)
        injection ht' with h1' _
        apply hhdtl
        rw [← hb, ← h1']
        exact List.mem_cons_self _ _
      | nil =>
        refine goodList_none _ rfl ?_
        show s.len - 1 = 0
        simp only [List.length_cons, List.length_nil] at hlen
        omega
    · rw [if_neg (fun hcon => hb (Option.some.inj hcon))] at hif
      simp only [obind_eq_some, Option.some.injEq] at hif
      cases tail with
      | nil =>
        exfalso
        exact hb ((chain_nil_iff _ _ _).mp hcb)
      | cons t0 t2 =>
        obtain ⟨hbt, ndB, b2, hmb, hnb2, hcb2⟩ :=
          (chain_cons_iff _ b t0 hd t2).mp hcb
        subst hbt
        obtain ⟨front, last, hdec, hfind⟩ :=
          findLast_eq s.heap.fresh (hd :: t0 :: t2) s.heap.mem hd hd
            (s.len.toNat + 1) hch (by simp) (by simpa using hhdtl)
            (by simp only [List.length_cons] at hlen ⊢; omega)
        obtain ⟨hchf, ndL, hml, hnl⟩ :=
          chain_split_last _ (hd :: t0 :: t2) front hd last hdec hch
        obtain ⟨last0, hfind0, h1, hw1, h2, hf2, hres⟩ := hif
        have hl0 := Option.some.inj (hfind.symm.trans hfind0)
        subst hl0
        subst hres
        have hdlast : hd ≠ last := by
          intro hcon
          rw [← hcon] at hml
          have hne' := Option.some.inj (hmh.symm.trans hml)
          apply hb
          have h5 : ndH.next = some hd := by rw [hne']; exact hnl
          exact (Option.some.inj (h5.symm.trans hnb)).symm
        have hw1e : s.heap.writeNext last (some t0) =
            some ⟨memUpd s.heap.mem last (some { ndL with next := some t0 }),
              s.heap.fresh⟩ :=
          writeNext_upd _ _ _ ndL hml
        have hh1 := Option.some.inj (hw1.symm.trans hw1e)
        subst hh1
        have hmh1 : memUpd s.heap.mem last
            (some { ndL with next := some t0 }) hd = some ndH := by
          rw [memUpd_ne _ _ _ _ hdlast]
          exact hmh
        have hf2e : LHeap.free
            ⟨memUpd s.heap.mem last (some { ndL with next := some t0 }),
              s.heap.fresh⟩ hd =
            some ⟨memUpd (memUpd s.heap.mem last
                (some { ndL with next := some t0 })) hd none,
              s.heap.fresh⟩ :=
          free_upd _ _ ndH hmh1
        have hh2 := Option.some.inj (hf2.symm.trans hf2e)
        subst hh2
        -- decompose the old cycle after its head
        have hfrne : front ≠ [] := by
          intro hcon
          rw [hcon] at hdec
          simp at hdec
        obtain ⟨f3, hf3⟩ := chain_ne_head _ _ _ _ hchf hfrne
        have hdec2 : t0 :: t2 = f3 ++ [last] := by
          have htmp := hdec
          rw [hf3] at htmp
          simpa using htmp
        rw [hf3] at hchf
        obtain ⟨_, nd2, b2', hmh2, hnb2', hchf2⟩ :=
          (chain_cons_iff _ hd hd last f3).mp hchf
        have hnd2e := Option.some.inj (hmh.symm.trans hmh2)
        subst hnd2e
        have hb2 := Option.some.inj (hnb.symm.trans hnb2')
        subst hb2
        refine goodList_some _ t0 (t0 :: t2) rfl ?_ (by simp)
          ((List.nodup_cons.mp hnd).2) ?_ ?_
        · rw [hdec2]
          refine (chain_append_iff _ f3 [last] t0 t0).mpr ⟨last, ?_, ?_⟩
          · refine chain_frame _ _ _ _ _ ?_ hchf2
            intro x hx
            dsimp only
            have hxt : x ∈ t0 :: t2 := by
              rw [hdec2]
              exact List.mem_append_left _ hx
            have hx1 : x ≠ hd := by
              intro hcon
              subst hcon
              exact hhdtl hxt
            have hx2 : x ≠ last := by
              intro hcon
              subst hcon
              exact (nodup_snoc_not_mem f3 x
                (by
                  have hnd2 := (List.nodup_cons.mp hnd).2
                  rw [hdec2] at hnd2
                  exact hnd2)) hx
            rw [memUpd_ne _ _ _ _ hx1, memUpd_ne _ _ _ _ hx2]
          · refine chain_singleton _ _ _ { ndL with next := some t0 } ?_ rfl
            show memUpd (memUpd s.heap.mem last
              (some { ndL with next := some t0 })) hd none last = _
            rw [memUpd_ne _ _ _ _ (Ne.symm hdlast), memUpd_same]
        · show s.len - 1 = _
          simp only [List.length_cons] at hlen ⊢
          omega
        · intro a ha
          exact hbnd a (List.mem_cons_of_mem _ ha)

/-- `del_end` preserves the representation invariant. -/
theorem del_end_good (s r : LState) (hg : goodList s)
    (h : del_end s = some r) : goodList r := by
  cases hhd : s.head with
  | none =>
    simp only [del_end, hhd] at h
    obtain rfl := Option.some.inj h
    exact hg
  | some hd =>
    obtain ⟨tail, hnd, hch, hlen, hbnd⟩ := goodList_elim s hd hg hhd
    have hhdtl : hd ∉ tail := (List.nodup_cons.mp hnd).1
    obtain ⟨heq, ndH, b, hmh, hnb, hcb⟩ :=
      (chain_cons_iff _ hd hd hd tail).mp hch
    simp only [del_end, hhd] at h
    simp only [obind_eq_some, Option.some.injEq] at h
    obtain ⟨hn, hrd, hif⟩ := h
    have hrd2 : s.heap.readNext hd = some ndH.next := readNext_eq _ _ _ hmh
    have hhn : hn = ndH.next := Option.some.inj (hrd.symm.trans hrd2)
    subst hhn
    rw [hnb] at hif
    by_cases hb : b = hd
    · rw [if_pos (by rw [hb])] at hif
      simp only [obind_eq_some, Option.some.injEq] at hif
      obtain ⟨h1, hf, hres⟩ := hif
      subst hres
      cases tail with
      | cons t0 t2 =>
        exfalso
        obtain ⟨t', ht'⟩ := chain_ne_head _ _ _ _ hcb (by simp)
        injection ht' with h1' _
        apply hhdtl
        rw [← hb, ← h1']
        exact List.mem_cons_self _ _
      | nil =>
        refine goodList_none _ rfl ?_
        show s.len - 1 = 0
        simp only [List.length_cons, List.length_nil] at hlen
        omega
    · rw [if_neg (fun hcon => hb (Option.some.inj hcon))] at hif
      simp only [obind_eq_some] at hif
      cases tail with
      | nil =>
        exfalso
        exact hb ((chain_nil_iff _ _ _).mp hcb)
      | cons t0 t2 =>
        obtain ⟨flp, hlwf, hmat⟩ := hif
        obtain ⟨front, last, hdec, hcase⟩ :=
          lastWithFollow_eq s.heap.fresh (hd :: t0 :: t2) s.heap.mem hd hd
            none (s.len.toNat + 1) hch (by simp) (by simpa using hhdtl)
            (by simp only [List.length_cons] at hlen ⊢; omega)
        rcases hcase with ⟨hfe, hrun⟩ | ⟨front2, fl, hfe, hrun⟩
        · exfalso
          rw [hfe] at hdec
          simp at hdec
        · have hflp := Option.some.inj (hrun.symm.trans hlwf)
          subst hflp
          dsimp only at hmat
          simp only [obind_eq_some, Option.some.injEq] at hmat
          obtain ⟨h1, hw1, h2, hf2, hres⟩ := hmat
          subst hres
          -- pieces of the old cycle
          obtain ⟨hchf, ndL, hml, hnl⟩ :=
            chain_split_last _ (hd :: t0 :: t2) front hd last hdec hch
          have hndfr : front.Nodup := (List.nodup_append.mp (hdec ▸ hnd)).1
          have hlastnf : last ∉ front := nodup_snoc_not_mem _ _ (hdec ▸ hnd)
          have hfl_mem : fl ∈ front := by rw [hfe]; simp
          have hfllast : fl ≠ last := by
            intro hcon
            apply hlastnf
            rw [← hcon]
            exact hfl_mem
          -- split the front at its last cell `fl`
          rw [hfe] at hchf
          obtain ⟨mid, hch2, hch3⟩ :=
            (chain_append_iff _ front2 [fl] hd last).mp hchf
          obtain ⟨hmid, ndF, b2, hmf, hnf, hch4⟩ :=
            (chain_cons_iff _ mid fl last []).mp hch3
          subst hmid
          have hb2 := ((chain_nil_iff _ _ _).mp hch4).symm
          subst hb2
          -- the two heap mutations
          have hw1e : s.heap.writeNext fl (some hd) =
              some ⟨memUpd s.heap.mem fl
                  (some { ndF with next := some hd }), s.heap.fresh⟩ :=
            writeNext_upd _ _ _ ndF hmf
          have hh1 := Option.some.inj (hw1.symm.trans hw1e)
          subst hh1
          have hml1 : memUpd s.heap.mem fl
              (some { ndF with next := some hd }) last = some ndL := by
            rw [memUpd_ne _ _ _ _ (Ne.symm hfllast)]
            exact hml
          have hf2e : LHeap.free
              ⟨memUpd s.heap.mem fl (some { ndF with next := some hd }),
                s.heap.fresh⟩ last =
              some ⟨memUpd (memUpd s.heap.mem fl
                  (some { ndF with next := some hd })) last none,
                s.heap.fresh⟩ :=
            free_upd _ _ ndL hml1
          have hh2 := Option.some.inj (hf2.symm.trans hf2e)
          subst hh2
          -- the shortened cycle is the old front
          refine goodList_some _ hd front rfl ?_
            (by rw [hfe]; simp) hndfr ?_ ?_
          · rw [hfe]
            refine (chain_append_iff _ front2 [fl] hd hd).mpr
              ⟨fl, ?_, ?_⟩
            · refine chain_frame _ _ _ _ _ ?_ hch2
              intro x hx
              dsimp only
              have hxf : x ∈ front := by
                rw [hfe]
                exact List.mem_append_left _ hx
              have hx1 : x ≠ fl := by
                intro hcon
                subst hcon
                exact (nodup_snoc_not_mem front2 x (hfe ▸ hndfr)) hx
              have hx2 : x ≠ last := by
                intro hcon
                subst hcon
                exact hlastnf hxf
              rw [memUpd_ne _ _ _ _ hx2, memUpd_ne _ _ _ _ hx1]
            · refine chain_singleton _ _ _ { ndF with next := some hd }
                ?_ rfl
              show memUpd (memUpd s.heap.mem fl
                (some { ndF with next := some hd })) last none fl = _
              rw [memUpd_ne _ _ _ _ hfllast, memUpd_same]
          · show s.len - 1 = _
            have hlen2 := congrArg List.length hdec
            simp only [List.length_cons, List.length_append,
              List.length_nil] at hlen hlen2 ⊢
            omega
          · intro a ha
            have haf : a ∈ hd :: t0 :: t2 := by
              rw [hdec]
              exact List.mem_append_left _ ha
            exact hbnd a haf

/-- `add_at` preserves the representation invariant. -/
theorem add_at_good (s : LState) (song artist : String) (pos : Int)
    (r : LState) (hg : goodList s) (h : add_at s song artist pos = some r) :
    goodList r := by
  unfold add_at at h
  split_ifs at h with h1 h2 h3
  · obtain rfl := Option.some.inj h
    exact hg
  · exact add_beg_good _ _ _ _ hg h
  · exact add_end_good _ _ _ _ hg h
  · cases hhd : s.head with
    | none =>
      rw [hhd] at h
      simp at h
    | some hd =>
      rw [hhd] at h
      dsimp only at h
      obtain ⟨tail, hnd, hch, hlen, hbnd⟩ := goodList_elim s hd hg hhd
      have hhdtl : hd ∉ tail := (List.nodup_cons.mp hnd).1
      have hpos : 2 ≤ pos ∧ pos ≤ s.len := by
        push_neg at h1
        omega
      have hch1 : chain (memUpd s.heap.mem s.heap.fresh
          (some ⟨song, artist, none⟩)) hd (hd :: tail) hd :=
        chain_frame _ _ _ _ _
          (fun x hx => memUpd_ne _ _ _ _ (Nat.ne_of_lt (hbnd x hx))) hch
      obtain ⟨A, tmp, B, hdec, hA, hadv⟩ :=
        advanceBreak_eq (s.heap.fresh + 1) (pos - 2).toNat (hd :: tail) _
          hd hd hch1 (by simpa using hhdtl)
          (by simp only [List.length_cons] at hlen ⊢; omega)
      simp only [alloc_eq] at h
      simp only [obind_eq_some, Option.some.injEq] at h
      obtain ⟨temp, hadv0, tn, hrd, h2, hw2, h3', hw3, hres⟩ := h
      have htmp := Option.some.inj (hadv.symm.trans hadv0)
      subst htmp
      subst hres
      -- the node at the insertion point
      have htmp_mem : tmp ∈ hd :: tail := by rw [hdec]; simp
      have htmpF : tmp ≠ s.heap.fresh := Nat.ne_of_lt (hbnd tmp htmp_mem)
      obtain ⟨mid, hchA, hchR⟩ :=
        (chain_append_iff _ A (tmp :: B) hd hd).mp (hdec ▸ hch1)
      obtain ⟨hmid, ndT, b2, hmt, hnt, hchB⟩ :=
        (chain_cons_iff _ mid tmp hd B).mp hchR
      subst hmid
      have hrde : LHeap.readNext
          ⟨memUpd s.heap.mem s.heap.fresh (some ⟨song, artist, none⟩),
            s.heap.fresh + 1⟩ tmp = some ndT.next :=
        readNext_eq _ _ _ hmt
      have htn := Option.some.inj (hrd.symm.trans hrde)
      subst htn
      -- the two writes
      have hw2e : LHeap.writeNext
          ⟨memUpd s.heap.mem s.heap.fresh (some ⟨song, artist, none⟩),
            s.heap.fresh + 1⟩ s.heap.fresh ndT.next =
          some ⟨memUpd (memUpd s.heap.mem s.heap.fresh
              (some ⟨song, artist, none⟩)) s.heap.fresh
              (some ⟨song, artist, ndT.next⟩), s.heap.fresh + 1⟩ :=
        writeNext_upd _ _ _ ⟨song, artist, none⟩ (memUpd_same _ _ _)
      have hh2 := Option.some.inj (hw2.symm.trans hw2e)
      subst hh2
      have hmt2 : memUpd (memUpd s.heap.mem s.heap.fresh
          (some ⟨song, artist, none⟩)) s.heap.fresh
          (some ⟨song, artist, ndT.next⟩) tmp = some ndT := by
        rw [memUpd_ne _ _ _ _ htmpF]
        exact hmt
      have hw3e : LHeap.writeNext
          ⟨memUpd (memUpd s.heap.mem s.heap.fresh
              (some ⟨song, artist, none⟩)) s.heap.fresh
              (some ⟨song, artist, ndT.next⟩), s.heap.fresh + 1⟩ tmp
            (some s.heap.fresh) =
          some ⟨memUpd (memUpd (memUpd s.heap.mem s.heap.fresh
              (some ⟨song, artist, none⟩)) s.heap.fresh
              (some ⟨song, artist, ndT.next⟩)) tmp
              (some { ndT with next := some s.heap.fresh }),
            s.heap.fresh + 1⟩ :=
        writeNext_upd _ _ _ ndT hmt2
      have hh3 := Option.some.inj (hw3.symm.trans hw3e)
      subst hh3
      -- the widened cycle
      have htmpA : tmp ∉ A ∧ tmp ∉ B := by
        have hndm := hdec ▸ hnd
        rw [List.nodup_middle, List.nodup_cons] at hndm
        constructor
        · intro hcon
          exact hndm.1 (List.mem_append_left _ hcon)
        · intro hcon
          exact hndm.1 (List.mem_append_right _ hcon)
      refine goodList_some _ hd (A ++ tmp :: s.heap.fresh :: B) rfl
        ?_ (by simp) ?_ ?_ ?_
      · refine (chain_append_iff _ A (tmp :: s.heap.fresh :: B) hd hd).mpr
          ⟨tmp, ?_, ?_⟩
        · refine chain_frame _ _ _ _ _ ?_ hchA
          intro x hx
          dsimp only
          have hxa : x ∈ hd :: tail := by rw [hdec]; simp [hx]
          have hx1 : x ≠ s.heap.fresh := Nat.ne_of_lt (hbnd x hxa)
          have hx2 : x ≠ tmp := by
            intro hcon
            subst hcon
            exact htmpA.1 hx
          rw [memUpd_ne _ _ _ _ hx2, memUpd_ne _ _ _ _ hx1,
            memUpd_ne _ _ _ _ hx1]
        · refine chain.cons (memUpd_same _ _ _) rfl ?_
          have hmF : memUpd (memUpd (memUpd s.heap.mem s.heap.fresh
              (some ⟨song, artist, none⟩)) s.heap.fresh
              (some ⟨song, artist, ndT.next⟩)) tmp
              (some { ndT with next := some s.heap.fresh }) s.heap.fresh =
              some ⟨song, artist, ndT.next⟩ := by
            rw [memUpd_ne _ _ _ _ (Ne.symm htmpF), memUpd_same]
          refine chain.cons hmF hnt ?_
          refine chain_frame _ _ _ _ _ ?_ hchB
          intro x hx
          dsimp only
          have hxa : x ∈ hd :: tail := by rw [hdec]; simp [hx]
          have hx1 : x ≠ s.heap.fresh := Nat.ne_of_lt (hbnd x hxa)
          have hx2 : x ≠ tmp := by
            intro hcon
            subst hcon
            exact htmpA.2 hx
          rw [memUpd_ne _ _ _ _ hx2, memUpd_ne _ _ _ _ hx1,
            memUpd_ne _ _ _ _ hx1]
      · have h4 : A ++ tmp :: s.heap.fresh :: B =
            (A ++ [tmp]) ++ s.heap.fresh :: B := by simp
        rw [h4, List.nodup_middle, List.nodup_cons]
        constructor
        · intro hmem
          have h5 : s.heap.fresh ∈ A ++ tmp :: B := by
            simp only [List.mem_append, List.mem_singleton,
              List.mem_cons] at hmem ⊢
            rcases hmem with (hm | hm | hm0) | hm
            · exact Or.inl hm
            · exact Or.inr (Or.inl hm)
            · exact absurd hm0 (List.not_mem_nil _)
            · exact Or.inr (Or.inr hm)
          rw [← hdec] at h5
          exact (Nat.ne_of_lt (hbnd _ h5)) rfl
        · have h6 := hdec ▸ hnd
          simpa using h6
      · show s.len + 1 = _
        have hlen2 := congrArg List.length hdec
        simp only [List.length_cons, List.length_append] at hlen hlen2 ⊢
        omega
      · intro a ha
        simp only [List.mem_append, List.mem_cons] at ha
        rcases ha with ha | ha | ha | ha
        · exact Nat.lt_succ_of_lt (hbnd a (by rw [hdec]; simp [ha]))
        · subst ha
          exact Nat.lt_succ_of_lt (hbnd _ (by rw [hdec]; simp))
        · subst ha
          exact Nat.lt_succ_self _
        · exact Nat.lt_succ_of_lt (hbnd a (by rw [hdec]; simp [ha]))

/-- `del_at` preserves the representation invariant. -/
theorem del_at_good (s : LState) (pos : Int) (r : LState) (hg : goodList s)
    (h : del_at s pos = some r) : goodList r := by
  cases hhd : s.head with
  | none =>
    simp only [del_at, hhd] at h
    obtain rfl := Option.some.inj h
    exact hg
  | some hd =>
    simp only [del_at, hhd] at h
    split_ifs at h with h1 h2 h3
    · obtain rfl := Option.some.inj h
      exact hg
    · exact del_beg_good _ _ hg h
    · exact del_end_good _ _ hg h
    · obtain ⟨tail, hnd, hch, hlen, hbnd⟩ := goodList_elim s hd hg hhd
      have hhdtl : hd ∉ tail := (List.nodup_cons.mp hnd).1
      have hpos : 2 ≤ pos ∧ pos ≤ s.len - 1 := by
        push_neg at h1
        omega
      have hsteps : (pos - 1).toNat = (pos - 2).toNat + 1 := by omega
      obtain ⟨A, fl, tmp, B, hdec, hA, hadv⟩ :=
        advanceFollow_eq s.heap.fresh (pos - 2).toNat (hd :: tail)
          s.heap.mem hd hd none hch (by simpa using hhdtl)
          (by simp only [List.length_cons] at hlen ⊢; omega)
      simp only [obind_eq_some] at h
      obtain ⟨flp, hadv0, hmat⟩ := h
      rw [hsteps] at hadv0
      have hflp := Option.some.inj (hadv.symm.trans hadv0)
      subst hflp
      dsimp only at hmat
      simp only [obind_eq_some, Option.some.injEq] at hmat
      obtain ⟨tn, hrd, h1', hw1, h2', hf2, hres⟩ := hmat
      subst hres
      obtain ⟨mid, hchA, hchR⟩ :=
        (chain_append_iff _ A (fl :: tmp :: B) hd hd).mp (hdec ▸ hch)
      obtain ⟨hmid, ndF, bf, hmf, hnf, hchR2⟩ :=
        (chain_cons_iff _ mid fl hd (tmp :: B)).mp hchR
      subst hmid
      obtain ⟨hmid2, ndT, bt, hmt, hnt, hchB⟩ :=
        (chain_cons_iff _ bf tmp hd B).mp hchR2
      subst hmid2
      cases B with
      | nil =>
        exfalso
        have hlen2 := congrArg List.length hdec
        simp only [List.length_cons, List.length_append,
          List.length_nil] at hlen2 hlen
        omega
      | cons b0 B' =>
        obtain ⟨l', hl'⟩ := chain_ne_head _ _ _ _ hchB (by simp)
        injection hl' with hb0 _
        subst hb0
        have hrde : s.heap.readNext tmp = some ndT.next :=
          readNext_eq _ _ _ hmt
        have htn := Option.some.inj (hrd.symm.trans hrde)
        subst htn
        have hw1e : s.heap.writeNext fl ndT.next =
            some ⟨memUpd s.heap.mem fl
                (some { ndF with next := ndT.next }), s.heap.fresh⟩ :=
          writeNext_upd _ _ _ ndF hmf
        have hh1 := Option.some.inj (hw1.symm.trans hw1e)
        subst hh1
        have hndm := hdec ▸ hnd
        rw [List.nodup_middle, List.nodup_cons] at hndm
        have hfltmp : fl ≠ tmp := by
          intro hcon
          exact hndm.1 (by rw [hcon]; simp)
        have hndm2 := hndm.2
        rw [List.nodup_middle, List.nodup_cons] at hndm2
        have hmt1 : memUpd s.heap.mem fl
            (some { ndF with next := ndT.next }) tmp = some ndT := by
          rw [memUpd_ne _ _ _ _ (Ne.symm hfltmp)]
          exact hmt
        have hf2e : LHeap.free
            ⟨memUpd s.heap.mem fl (some { ndF with next := ndT.next }),
              s.heap.fresh⟩ tmp =
            some ⟨memUpd (memUpd s.heap.mem fl
                (some { ndF with next := ndT.next })) tmp none,
              s.heap.fresh⟩ :=
          free_upd _ _ ndT hmt1
        have hh2 := Option.some.inj (hf2.symm.trans hf2e)
        subst hh2
        refine goodList_some _ hd (A ++ fl :: b0 :: B') rfl
          ?_ (by simp) ?_ ?_ ?_
        · refine (chain_append_iff _ A (fl :: b0 :: B') hd hd).mpr
            ⟨fl, ?_, ?_⟩
          · refine chain_frame _ _ _ _ _ ?_ hchA
            intro x hx
            dsimp only
            have hx1 : x ≠ fl := by
              intro hcon
              subst hcon
              exact hndm.1 (List.mem_append_left _ hx)
            have hx2 : x ≠ tmp := by
              intro hcon
              subst hcon
              exact hndm2.1 (List.mem_append_left _ hx)
            rw [memUpd_ne _ _ _ _ hx2, memUpd_ne _ _ _ _ hx1]
          · have hmfl : memUpd (memUpd s.heap.mem fl
                (some { ndF with next := ndT.next })) tmp none fl =
                some { ndF with next := ndT.next } := by
              rw [memUpd_ne _ _ _ _ hfltmp, memUpd_same]
            refine chain.cons hmfl hnt ?_
            refine chain_frame _ _ _ _ _ ?_ hchB
            intro x hx
            dsimp only
            have hx1 : x ≠ fl := by
              intro hcon
              subst hcon
              exact hndm.1 (List.mem_append_right _ (by simp [hx]))
            have hx2 : x ≠ tmp := by
              intro hcon
              subst hcon
              exact hndm2.1 (List.mem_append_right _ hx)
            rw [memUpd_ne _ _ _ _ hx2, memUpd_ne _ _ _ _ hx1]
        · rw [show A ++ fl :: b0 :: B' = A ++ fl :: b0 :: B' from rfl,
            List.nodup_middle, List.nodup_cons]
          constructor
          · intro hcon
            apply hndm.1
            simp only [List.mem_append, List.mem_cons] at hcon ⊢
            rcases hcon with hc | hc | hc
            · exact Or.inl hc
            · exact Or.inr (Or.inr (Or.inl hc))
            · exact Or.inr (Or.inr (Or.inr hc))
          · exact hndm2.2
        · show s.len - 1 = _
          have hlen2 := congrArg List.length hdec
          simp only [List.length_cons, List.length_append] at hlen hlen2 ⊢
          omega
        · intro a ha
          refine hbnd a ?_
          rw [hdec]
          simp only [List.mem_append, List.mem_cons] at ha ⊢
          rcases ha with ha | ha | ha | ha
          · exact Or.inl ha
          · exact Or.inr (Or.inl ha)
          · exact Or.inr (Or.inr (Or.inr (Or.inl ha)))
          · exact Or.inr (Or.inr (Or.inr (Or.inr ha)))

/-- A successful `clear` always leaves an empty list (its success branches
all return `head = nullptr`, `len = 0`; the heap contents are irrelevant to
the representation invariant of an empty list). -/
theorem clear_good (s r : LState) (hg : goodList s) (h : clear s = some r) :
    goodList r := by
  cases hhd : s.head with
  | none =>
    simp only [clear, hhd] at h
    obtain rfl := Option.some.inj h
    exact hg
  | some hd =>
    simp only [clear, hhd] at h
    simp only [obind_eq_some, Option.some.injEq] at h
    obtain ⟨hn, hrd, hmat⟩ := h
    cases hn with
    | none =>
      dsimp only at hmat
      simp only [obind_eq_some, Option.some.injEq] at hmat
      obtain ⟨h1, hf, hres⟩ := hmat
      subst hres
      exact goodList_none _ rfl rfl
    | some second =>
      dsimp only at hmat
      simp only [obind_eq_some, Option.some.injEq] at hmat
      obtain ⟨h1, hw, h2, hcl, h3, hf, hres⟩ := hmat
      subst hres
      exact goodList_none _ rfl rfl

/-- Every operation preserves the representation invariant. -/
theorem applyOp_good (s : LState) (op : LOp) (r : LState) (hg : goodList s)
    (h : applyOp s op = some r) : goodList r := by
  cases op with
  | add_beg song artist => exact add_beg_good _ _ _ _ hg h
  | add_end song artist => exact add_end_good _ _ _ _ hg h
  | add_at song artist pos => exact add_at_good _ _ _ _ _ hg h
  | del_beg => exact del_beg_good _ _ hg h
  | del_end => exact del_end_good _ _ hg h
  | del_at pos => exact del_at_good _ _ _ hg h
  | clear => exact clear_good _ _ hg h

/-- The empty list satisfies the representation invariant. -/
theorem goodList_init : goodList lInit :=
  goodList_none _ rfl rfl

/-- The fold underlying `runOps` preserves the representation invariant. -/
theorem runOps_fold_good (ops : List LOp) :
    ∀ (acc : Option LState), (∀ t, acc = some t → goodList t) →
      ∀ s, ops.foldl (fun a op => a.bind (fun st => applyOp st op)) acc =
        some s → goodList s := by
  induction ops with
  | nil =>
    intro acc hacc s h
    exact hacc s h
  | cons op ops ih =>
    intro acc hacc s h
    refine ih (acc.bind (fun st => applyOp st op)) ?_ s h
    intro t ht
    cases acc with
    | none => exact Option.noConfusion ht
    | some u =>
      exact applyOp_good u op t (hacc u rfl) ht

/-- Every state reachable by a defined run of operations satisfies the
representation invariant. -/
theorem runOps_good (ops : List LOp) (s : LState) (h : runOps ops = some s) :
    goodList s := by
  unfold runOps at h
  refine runOps_fold_good ops (some lInit) ?_ s h
  intro t ht
  obtain rfl := Option.some.inj ht
  exact goodList_init

/-- C10: the claim states that after ANY sequence of `add_beg`, `add_end`,
`add_at`, `del_beg`, `del_end`, `del_at` and `clear` operations starting
from an empty `LinkedList`, either `head` is null and `len = 0`, or the
list is circular (following `next` exactly `len` times from `head` returns
to `head`) with `len` counting its nodes.  First conjunct (proved): every
DEFINED run does reach such a state - the six structural operations
maintain a duplicate-free circular cycle of exactly `len` allocated nodes.
Second conjunct (the bug): the claim's "any sequence" fails for
`[add_end, clear]` - on every properly circular non-empty list, `clear`
first breaks the circle, then its deletion walk follows the last node's
back-pointer to `head` and frees `head`, and its final `delete head` frees
`head` a second time (`link.cpp` lines 288-298), so the run has no defined
result state at all. -/
theorem c10_circular_invariant :
    (∀ (ops : List LOp) (s : LState), runOps ops = some s →
      (s.head = none ∧ s.len = 0) ∨
      (∃ (hd : Nat) (addrs : List Nat), s.head = some hd ∧ addrs ≠ [] ∧
        addrs.Nodup ∧ chain s.heap.mem hd addrs hd ∧
        s.len = (addrs.length : Int) ∧
        followNext s.heap hd s.len.toNat = some hd)) ∧
    runOps [LOp.add_end "a" "b", LOp.clear] = none := by
  constructor
  · intro ops s h
    obtain ⟨addrs, hrep⟩ := runOps_good ops s h
    unfold listRep at hrep
    cases hhd : s.head with
    | none =>
      rw [hhd] at hrep
      exact Or.inl ⟨rfl, hrep.2⟩
    | some hd =>
      rw [hhd] at hrep
      obtain ⟨hch, hne, hnd, hlen, hbnd⟩ := hrep
      refine Or.inr ⟨hd, addrs, rfl, hne, hnd, hch, hlen, ?_⟩
      have hfn := chain_followNext s.heap.fresh addrs s.heap.mem hd hd hch
      have hlt : s.len.toNat = addrs.length := by omega
      rw [hlt]
      exact hfn
  · rfl

/-- Witness for C10: one concrete defined run (a single `add_beg`) reaching
the concrete one-node state, on which the proved invariant is instantiated
with its hypothesis discharged by evaluation. -/
theorem c10_circular_invariant_witness :
    runOps [LOp.add_beg "x" "y"] = some c10WitnessState ∧
    ((c10WitnessState.head = none ∧ c10WitnessState.len = 0) ∨
      (∃ (hd : Nat) (addrs : List Nat), c10WitnessState.head = some hd ∧
        addrs ≠ [] ∧ addrs.Nodup ∧
        chain c10WitnessState.heap.mem hd addrs hd ∧
        c10WitnessState.len = (addrs.length : Int) ∧
        followNext c10WitnessState.heap hd c10WitnessState.len.toNat =
          some hd)) :=
  ⟨rfl, c10_circular_invariant.1 [LOp.add_beg "x" "y"] c10WitnessState rfl⟩

end MusicPlayer